import Mathlib

/-!
# Verification of the leaderboard ranking kernel

Shallow embedding of `src/Leaderboard.cpp` and `src/PlayerStream.cpp`:
two offline top-10% selectors (`Offline.heapRank`, `Offline.quickSelectRank`),
a hand-written min-heap root replacement (`Online.replaceMin`) and the
streaming top-R maintainer (`Online.rankIncoming`) over a
`VectorPlayerStream`.

Vectors are modelled as `List Player` with index reads `List.getD`; the
C++ code guards every indexed read, so the default value is never
observable.  `std::vector::front()` on an empty vector is undefined
behaviour; the embedding surfaces it as an explicit error so that
reachability of that read can be settled.  Wall-clock timing
(`elapsed_`) has no computational content and is not modelled.

The two unbounded loops of the source (`while (true)` percolation in
`replaceMin`, `while (stream.remaining() > 0)` in `rankIncoming`) are
embedded as structural recursion on an iteration bound that is provably
never reached: `siftDownFuel_some` and `siftDownFuel_mono` show the
percolation loop reaches its exit condition within `heapSize` steps and
that every sufficient bound yields the same result, and `rankLoop` is
run with bound `stream.remaining`, which decreases by exactly one per
iteration.
-/

/-- A scored entity.  `Player.hpp` is not part of the sources;
modelled from the spec: a record with an opaque identity and a numeric
`level_` rank field.  The identity is represented by a `Nat` tag. -/
structure Player where
  name_ : Nat
  level_ : Nat
deriving DecidableEq

/-- Default value used for guarded indexed reads (never observable:
every read in the source is behind a bounds check). -/
def dp : Player := ⟨0, 0⟩

/-- Modelled from the spec: the total order on players (external
collaborator) compares the numeric level field; this is `operator<`. -/
def Player.ltb (p q : Player) : Bool := decide (p.level_ < q.level_)

/-- The comparator direction used by the max-heap in `heapRank`
(`std::make_heap`/`std::pop_heap` with the default `std::less`):
`p` precedes `q` towards the root iff `q < p`. -/
def Player.gtb (p q : Player) : Bool := decide (q.level_ < p.level_)

/-- The non-strict order by level, used to model ascending sorts. -/
def levelLe (p q : Player) : Prop := p.level_ ≤ q.level_

instance : DecidableRel levelLe := fun p q => Nat.decLe p.level_ q.level_

instance : IsTotal Player levelLe := ⟨fun p q => Nat.le_total p.level_ q.level_⟩

instance : IsTrans Player levelLe := ⟨fun _ _ _ h h' => Nat.le_trans h h'⟩

/-- Descending order on levels (largest first), for ranking statements. -/
def geN (a b : Nat) : Prop := b ≤ a

instance : DecidableRel geN := fun a b => Nat.decLe b a

instance : IsTotal Nat geN := ⟨fun a b => Nat.le_total b a⟩

instance : IsTrans Nat geN := ⟨fun _ _ _ h h' => Nat.le_trans h' h⟩

/-- The result record of every ranking operation (`RankingResult`):
the sorted top subset and the cutoffs map.  The C++ `cutoffs_` is a
`std::unordered_map<size_t, size_t>`; it is modelled as an association
list with insert-or-assign and key-lookup (`cutAssign` / `cutLookup`).
The timing field `elapsed_` is not modelled. -/
structure RankingResult where
  top_ : List Player
  cutoffs_ : List (Nat × Nat)
deriving DecidableEq

/-- `map.find(k) != map.end()` for the cutoffs map. -/
def cutContains (m : List (Nat × Nat)) (k : Nat) : Bool :=
  m.any (fun kv => kv.1 == k)

/-- `map[k] = v` (insert-or-assign) for the cutoffs map. -/
def cutAssign (m : List (Nat × Nat)) (k v : Nat) : List (Nat × Nat) :=
  if cutContains m k then m.map (fun kv => if kv.1 == k then (k, v) else kv)
  else (k, v) :: m

/-- Key lookup in the cutoffs map. -/
def cutLookup (m : List (Nat × Nat)) (k : Nat) : Option Nat :=
  (m.find? (fun kv => kv.1 == k)).map (fun kv => kv.2)

/-- Swap the entries at indices `i` and `j` (`std::swap(*a, *b)` on a
vector); out-of-range indices leave the list unchanged. -/
def swapL (l : List Player) (i j : Nat) : List Player :=
  (l.set i (l.getD j dp)).set j (l.getD i dp)

namespace Online

/-- The index the percolation loop of `replaceMin` moves to from `i`:
the smallest (wrt `lt`) among the node and its in-range children
`2 i + 1` and `2 i + 2`, exactly as computed by the two `if`s in the
source loop body. -/
def pickSmallest (lt : Player → Player → Bool) (l : List Player) (i : Nat) : Nat :=
  let n := l.length
  let s1 := if 2 * i + 1 < n ∧ lt (l.getD (2 * i + 1) dp) (l.getD i dp) = true
    then 2 * i + 1 else i
  if 2 * i + 2 < n ∧ lt (l.getD (2 * i + 2) dp) (l.getD s1 dp) = true
    then 2 * i + 2 else s1

/-- The percolate-down loop of `Online::replaceMin` (lines 139–165 of
`Leaderboard.cpp`), generic in the comparator so that it also serves as
the sift-down of the standard heap algorithms: while the smallest of
the current node and its children is a child, swap with it and
continue there.  The loop is `while (true)` in the source; here it is
driven by an iteration bound.  `none` marks a run that did not reach
the exit condition within the bound; `siftDownFuel_some` below shows
this never happens once the bound is at least the heap size. -/
def siftDownFuel (lt : Player → Player → Bool) :
    Nat → List Player → Nat → Option (List Player)
  | 0, _, _ => none
  | fuel + 1, l, i =>
    let s := pickSmallest lt l i
    if s = i then some l else siftDownFuel lt fuel (swapL l i s) s

/-- The percolation loop as a total function, run with the provably
sufficient bound (see `siftDownFuel_some` and `siftDownFuel_mono`). -/
def siftDown (lt : Player → Player → Bool) (l : List Player) (i : Nat) : List Player :=
  (siftDownFuel lt (l.length + 1) l i).getD l

/-- `Online::replaceMin`: overwrite the root of the min-heap
`[first, last)` with `target` and percolate it down; an empty range is
returned unchanged (`if (first == last) return;`). -/
def replaceMin (l : List Player) (target : Player) : List Player :=
  if l.length = 0 then l
  else siftDown Player.ltb (l.set 0 target) 0

/-- `replaceMin` with the percolation loop's iteration count made
observable, for the termination claim. -/
def replaceMinFuel (fuel : Nat) (l : List Player) (target : Player) :
    Option (List Player) :=
  if l.length = 0 then some l
  else siftDownFuel Player.ltb fuel (l.set 0 target) 0

end Online

/-- Models `std::make_heap(b, e, std::greater<Player>())` (a min-heap
by level).  The standard only specifies that the result is a
permutation of the range satisfying the heap property; which
permutation — in particular where equal-level entities end up — is
implementation-defined, and real library implementations arrange the
range differently from any stable sort in general.  The conforming
implementation used here arranges the range in ascending level order
(a sorted range is a valid min-heap).  Accordingly, every general
theorem below that goes through this function depends only on the
heap property and the permutation (level multisets, sizes,
sortedness), so it is invariant under the choice of conforming
arrangement; and every concrete trace below reaches this function
only on a buffer whose levels are strictly increasing — already a
valid min-heap with pairwise-distinct values, which the model and the
deployed implementations leave unchanged (the hole-scheme heapify of
libstdc++ and MSVC moves each subtree root down to a leaf and then
climbs it back while the strict comparison against the saved value
succeeds, fully restoring an existing heap whose values are distinct,
and an early-exit sift-down such as libc++'s moves nothing on a valid
heap), so those traces do not depend on the arrangement choice. -/
def makeHeapMin (l : List Player) : List Player := List.insertionSort levelLe l

instance : DecidableRel (fun p q => levelLe q p) := fun p q => Nat.decLe q.level_ p.level_

instance : IsTotal Player (fun p q => levelLe q p) := ⟨fun p q => Nat.le_total q.level_ p.level_⟩

instance : IsTrans Player (fun p q => levelLe q p) := ⟨fun _ _ _ h h' => Nat.le_trans h' h⟩

/-- Models `std::make_heap(b, e)` with the default `std::less` (a
max-heap by level): a conforming implementation arranging the range in
descending level order. -/
def makeHeapMax (l : List Player) : List Player :=
  List.insertionSort (fun p q => levelLe q p) l

/-- Models `std::sort(b, e)` ascending by the player order: a
conforming implementation (sorted permutation) via insertion sort. -/
def sortPlayers (l : List Player) : List Player := List.insertionSort levelLe l

/-- Models `std::nth_element(b, b + k, e)`: the standard specifies a
permutation in which every element at or after position `k` is no less
than every element before it; the conforming implementation used here
sorts the range ascending by level.  The claims touching this call
depend only on the specified partition property and permutation. -/
def nthElement (k : Nat) (l : List Player) : List Player :=
  List.insertionSort levelLe l

namespace Offline

/-- One `pop_heap` + `back()` + `pop_back()` step of `heapRank`'s
extraction loop: report the root (the current maximum), swap it with
the last element, shrink, and sift the new root down over the
shortened range. -/
def popExtract (l : List Player) : Player × List Player :=
  match l with
  | [] => (dp, [])
  | _ :: _ =>
    (l.getD 0 dp, Online.siftDown Player.gtb ((swapL l 0 (l.length - 1)).dropLast) 0)

/-- The extraction loop of `heapRank`: pop the maximum `m` times,
accumulating the extracted players in pop order. -/
def extractTop : Nat → List Player → List Player × List Player
  | 0, l => ([], l)
  | m + 1, l =>
    match l with
    | [] => ([], l)
    | _ :: _ =>
      let pr := popExtract l
      let r := extractTop m pr.2
      (pr.1 :: r.1, r.2)

/-- `Offline::heapRank`: heapify the whole vector, pop the maximum
`⌊N/10⌋` times into an accumulator, sort the accumulator ascending.
The second component is the state of the caller's vector afterwards
(the extraction removes the popped elements from it). -/
def heapRank (players : List Player) : RankingResult × List Player :=
  let heaped := makeHeapMax players
  let topCount := players.length / 10
  let pr := extractTop topCount heaped
  (⟨sortPlayers pr.1, []⟩, pr.2)

/-- `Offline::quickSelectRank`: partition around `k = N - ⌊N/10⌋`,
copy out the elements from index `k` on, sort the copy ascending.  The
second component is the state of the caller's vector afterwards (it is
only rearranged). -/
def quickSelectRank (players : List Player) : RankingResult × List Player :=
  let N := players.length
  let k := N - N / 10
  let arranged := nthElement k players
  let topPlayers := arranged.drop k
  (⟨sortPlayers topPlayers, []⟩, arranged)

end Offline

/-- `VectorPlayerStream` from `PlayerStream.cpp`: a vector of players
and a cursor. -/
structure VectorPlayerStream where
  players_ : List Player
  index_ : Nat
deriving DecidableEq

/-- The exhaustion error thrown by `nextPlayer`
(`std::runtime_error("No more players to fetch")`). -/
inductive StreamErr
  | exhausted
deriving DecidableEq

/-- `VectorPlayerStream::nextPlayer`: throws iff the cursor has passed
the end, otherwise returns the current player and advances. -/
def VectorPlayerStream.nextPlayer (s : VectorPlayerStream) :
    Except StreamErr (Player × VectorPlayerStream) :=
  if s.players_.length ≤ s.index_ then .error .exhausted
  else .ok (s.players_.getD s.index_ dp, ⟨s.players_, s.index_ + 1⟩)

/-- `VectorPlayerStream::remaining`. -/
def VectorPlayerStream.remaining (s : VectorPlayerStream) : Nat :=
  s.players_.length - s.index_

/-- Observable failures of the embedded `rankIncoming`: the stream's
exhaustion error, or an out-of-bounds `front()` on an empty leader
buffer (undefined behaviour in the C++). -/
inductive RankErr
  | exhausted
  | frontEmpty
deriving DecidableEq

/-- `std::vector::front()`; on an empty vector the read is
out-of-bounds, surfaced as an error. -/
def front (l : List Player) : Except RankErr Player :=
  match l with
  | [] => .error .frontEmpty
  | p :: _ => .ok p

namespace Online

/-- The loop-carried state of `rankIncoming`: the leader buffer, the
cutoffs map and the running consumed count. -/
structure LoopState where
  topPlayers : List Player
  cutoffs : List (Nat × Nat)
  playerCount : Nat
deriving DecidableEq

/-- The buffer update of one `rankIncoming` iteration: append while
below capacity (heapifying on reaching exactly `R`), otherwise replace
the minimum iff the incoming player is strictly greater than
`topPlayers.front()`. -/
def stepBuffer (R : Nat) (tp : List Player) (p : Player) :
    Except RankErr (List Player) :=
  if tp.length < R then
    let b := tp ++ [p]
    .ok (if b.length = R then makeHeapMin b else b)
  else
    match front tp with
    | .error e => .error e
    | .ok f => if Player.ltb f p then .ok (replaceMin tp p) else .ok tp

/-- One full iteration of the `rankIncoming` while-loop body for an
incoming player `p`: bump the count, update the buffer, and record a
cutoff from the buffer's front when the count is a multiple of `R`. -/
def stepP (R : Nat) (st : LoopState) (p : Player) : Except RankErr LoopState :=
  let count := st.playerCount + 1
  match stepBuffer R st.topPlayers p with
  | .error e => .error e
  | .ok tp =>
    if count % R = 0 then
      match front tp with
      | .error e => .error e
      | .ok f => .ok ⟨tp, cutAssign st.cutoffs count f.level_, count⟩
    else .ok ⟨tp, st.cutoffs, count⟩

/-- The `while (stream.remaining() > 0)` loop of `rankIncoming`,
driven by an iteration bound.  The loop is always entered with bound
`s.remaining`, which decreases by exactly one per iteration, so the
`0`-bound branch coincides with the loop's exit condition. -/
def rankLoop (R : Nat) : Nat → VectorPlayerStream → LoopState →
    Except RankErr LoopState
  | 0, _, st => .ok st
  | fuel + 1, s, st =>
    if 0 < s.remaining then
      match s.nextPlayer with
      | .error _ => .error .exhausted
      | .ok pr =>
        match stepP R st pr.1 with
        | .error e => .error e
        | .ok st' => rankLoop R fuel pr.2 st'
    else .ok st

/-- `Online::rankIncoming`: run the loop from an empty state, force a
final cutoff for the total count when absent (reading the buffer's
front), and sort the buffer ascending into the top subset. -/
def rankIncoming (stream : VectorPlayerStream) (R : Nat) :
    Except RankErr RankingResult :=
  match rankLoop R stream.remaining stream ⟨[], [], 0⟩ with
  | .error e => .error e
  | .ok st =>
    if cutContains st.cutoffs st.playerCount then
      .ok ⟨sortPlayers st.topPlayers, st.cutoffs⟩
    else
      match front st.topPlayers with
      | .error e => .error e
      | .ok f =>
        .ok ⟨sortPlayers st.topPlayers,
          cutAssign st.cutoffs st.playerCount f.level_⟩

/-- The loop body of `rankIncoming` applied to an explicit list of
players (the part of the stream's vector that is still to be read);
`rankLoop_eq_runList` identifies the two. -/
def runList (R : Nat) : List Player → LoopState → Except RankErr LoopState
  | [], st => .ok st
  | p :: ps, st =>
    match stepP R st p with
    | .error e => .error e
    | .ok st' => runList R ps st'

end Online

/-! ## Specification-side definitions

These follow the words of the spec and the claims, for comparison with
the code-side functions above. -/

/-- The levels of a list of players, in descending order. -/
def sortDescLevels (ps : List Player) : List Nat :=
  List.insertionSort geN (ps.map Player.level_)

/-- The multiset of the `R` highest levels occurring in `ps` (the first
`R` entries of the descending level sequence). -/
def specTopLevels (R : Nat) (ps : List Player) : List Nat :=
  (sortDescLevels ps).take R

/-- The `R`-th highest level in `ps` (the "minimum level to qualify"
for a leaderboard of capacity `R`). -/
def nthHighest (R : Nat) (ps : List Player) : Nat :=
  (sortDescLevels ps).getD (R - 1) 0

/-- The multiset of levels of a multiset of players. -/
def levelsM (M : Multiset Player) : Multiset Nat := M.map Player.level_

/-- `B` is a top-`m` sub-multiset of `P`: it consists of `m` of the
values of `P`, and dominates everything it leaves out. -/
def IsTopSub (m : Nat) (B P : Multiset Nat) : Prop :=
  B ≤ P ∧ Multiset.card B = m ∧ ∀ x ∈ P - B, ∀ y ∈ B, x ≤ y

/-- The heap property for a list viewed as a binary heap with children
at `2 i + 1` / `2 i + 2`: no entry is `lt`-before its parent. -/
def IsHeap (lt : Player → Player → Bool) (l : List Player) : Prop :=
  ∀ j < l.length, 0 < j → lt (l.getD j dp) (l.getD ((j - 1) / 2) dp) = false

/-- The cutoffs map contents the loop of `rankIncoming` builds over a
consumed prefix of `n` players: one entry per multiple of `R` in
`[1, n]`, most recent first, each holding the `R`-th highest level of
the prefix consumed at that point. -/
def mkCuts (R : Nat) (consumed : List Player) : Nat → List (Nat × Nat)
  | 0 => []
  | n + 1 =>
    if (n + 1) % R = 0 then
      (n + 1, nthHighest R (consumed.take (n + 1))) :: mkCuts R consumed n
    else mkCuts R consumed n

/-- The claims' tie-policy reading of the streaming top subset ("ties
resolved in favor of earlier-seen entities"): the entity at position
`i` qualifies iff fewer than `R` entities beat it, where `j` beats `i`
iff `j`'s level is higher, or equal with `j` seen earlier; sorted
ascending. -/
def firstSeenTop (R : Nat) (ps : List Player) : List Player :=
  sortPlayers (((List.range ps.length).filter (fun i =>
    decide (((List.range ps.length).filter (fun j =>
      decide ((ps.getD i dp).level_ < (ps.getD j dp).level_ ∨
        ((ps.getD j dp).level_ = (ps.getD i dp).level_ ∧ j < i)))).length < R))).map
    (fun i => ps.getD i dp))

/-- "No tied levels straddle the partition boundary" for the offline
selectors: either no element is selected, or the lowest selected level
differs from the highest unselected one. -/
def NoStraddle (ps : List Player) : Prop :=
  ps.length / 10 = 0 ∨
    (sortDescLevels ps).getD (ps.length / 10 - 1) 0 ≠
      (sortDescLevels ps).getD (ps.length / 10) 0

/-- Comparator laws satisfied by both heap comparators: asymmetry and
co-transitivity (together these give irreflexivity and
transitivity). -/
structure StrictCmp (lt : Player → Player → Bool) : Prop where
  asymm : ∀ x y, lt x y = true → lt y x = false
  cotrans : ∀ x y z, lt x y = true → lt x z = true ∨ lt z y = true

/-- `j` is a child index of `i` in the binary-heap layout (`2i+1` /
`2i+2`). -/
def childOf (i j : Nat) : Prop := j = 2 * i + 1 ∨ j = 2 * i + 2

/-- The invariant of the percolation loop at position `i`: every
parent-child pair not parented at `i` already satisfies the heap
property, and the children of `i` already satisfy it with respect to
`i`'s parent. -/
def AlmostHeap (lt : Player → Player → Bool) (l : List Player) (i : Nat) : Prop :=
  (∀ x j, childOf x j → j < l.length → x ≠ i →
    lt (l.getD j dp) (l.getD x dp) = false) ∧
  (∀ j, childOf i j → j < l.length → ∀ p, childOf p i →
    lt (l.getD j dp) (l.getD p dp) = false)

/-- The multiset of levels of a list of players. -/
def levelsL (l : List Player) : Multiset Nat := ↑(l.map Player.level_)

deriving instance DecidableEq for Except

instance (lt : Player → Player → Bool) (l : List Player) : Decidable (IsHeap lt l) := by
  unfold IsHeap; infer_instance

instance (ps : List Player) : Decidable (NoStraddle ps) := by
  unfold NoStraddle; infer_instance

/-- The loop invariant of `rankIncoming` after consuming the prefix
`consumed`: the count matches, the buffer holds `min R N` players whose
level multiset is a top subset of the consumed levels, the buffer is
the consumed prefix itself while below capacity and a min-heap once at
capacity, and the cutoffs map is exactly `mkCuts`. -/
def StreamInv (R : Nat) (consumed : List Player) (st : Online.LoopState) : Prop :=
  st.playerCount = consumed.length ∧
  st.topPlayers.length = min R consumed.length ∧
  IsTopSub (min R consumed.length) (levelsL st.topPlayers) (levelsL consumed) ∧
  (consumed.length < R → st.topPlayers = consumed) ∧
  (R ≤ consumed.length → IsHeap Player.ltb st.topPlayers) ∧
  st.cutoffs = mkCuts R consumed consumed.length

/-! ## Comparator laws -/

theorem strictCmp_ltb : StrictCmp Player.ltb := by
  constructor
  · intro x y h
    simp only [Player.ltb, decide_eq_true_eq] at h
    simp only [Player.ltb, decide_eq_false_iff_not]
    omega
  · intro x y z h
    simp only [Player.ltb, decide_eq_true_eq] at *
    omega

theorem strictCmp_gtb : StrictCmp Player.gtb := by
  constructor
  · intro x y h
    simp only [Player.gtb, decide_eq_true_eq] at h
    simp only [Player.gtb, decide_eq_false_iff_not]
    omega
  · intro x y z h
    simp only [Player.gtb, decide_eq_true_eq] at *
    omega

theorem StrictCmp.irrefl {lt : Player → Player → Bool} (hc : StrictCmp lt)
    (x : Player) : lt x x = false := by
  cases h : lt x x
  · rfl
  · have := hc.asymm x x h
    rw [h] at this
    exact this

theorem StrictCmp.ltTrans {lt : Player → Player → Bool} (hc : StrictCmp lt)
    {x y z : Player} (h1 : lt x y = true) (h2 : lt y z = true) : lt x z = true := by
  rcases hc.cotrans x y z h1 with h | h
  · exact h
  · have := hc.asymm y z h2
    rw [this] at h
    exact absurd h (by simp)

/-! ## List access and swap lemmas -/

theorem getD_set_self {l : List Player} {i : Nat} (a : Player) (h : i < l.length) :
    (l.set i a).getD i dp = a := by
  rw [List.getD_eq_getElem _ _ (by simpa)]
  exact List.getElem_set_self _

theorem getD_set_ne {l : List Player} {i j : Nat} (a : Player) (h : i ≠ j) :
    (l.set i a).getD j dp = l.getD j dp := by
  by_cases hj : j < l.length
  · rw [List.getD_eq_getElem _ _ (by simpa), List.getD_eq_getElem _ _ hj,
      List.getElem_set_ne h]
  · rw [List.getD_eq_default _ _ (by simp; omega), List.getD_eq_default _ _ (by omega)]

theorem swapL_length (l : List Player) (i j : Nat) :
    (swapL l i j).length = l.length := by
  simp [swapL]

theorem getD_swapL_left {l : List Player} {i j : Nat} (hi : i < l.length) :
    (swapL l i j).getD i dp = l.getD j dp := by
  by_cases hij : i = j
  · subst hij
    exact getD_set_self _ (by simpa)
  · unfold swapL
    rw [getD_set_ne _ (fun h => hij h.symm), getD_set_self _ hi]

theorem getD_swapL_right {l : List Player} {i j : Nat} (hj : j < l.length) :
    (swapL l i j).getD j dp = l.getD i dp :=
  getD_set_self _ (by simpa)

theorem getD_swapL_other {l : List Player} {i j k : Nat} (hki : k ≠ i) (hkj : k ≠ j) :
    (swapL l i j).getD k dp = l.getD k dp := by
  unfold swapL
  rw [getD_set_ne _ (fun h => hkj h.symm), getD_set_ne _ (fun h => hki h.symm)]

/-! ## Multiset lemmas for set and swap -/

theorem multiset_set : ∀ (l : List Player) (i : Nat) (a : Player), i < l.length →
    (↑(l.set i a) : Multiset Player) + {l.getD i dp} = ↑l + {a}
  | [], i, _, h => absurd h (by simp)
  | x :: xs, 0, a, _ => by
    simp only [List.set, List.getD_cons_zero]
    have h1 : (↑(a :: xs) : Multiset Player) = a ::ₘ ↑xs := rfl
    have h2 : (↑(x :: xs) : Multiset Player) = x ::ₘ ↑xs := rfl
    rw [h1, h2, add_comm, add_comm (x ::ₘ ↑xs), Multiset.singleton_add,
      Multiset.singleton_add]
    exact Multiset.cons_swap x a ↑xs
  | x :: xs, i + 1, a, h => by
    simp only [List.set, List.getD_cons_succ]
    have h1 : (↑(x :: xs.set i a) : Multiset Player) = x ::ₘ ↑(xs.set i a) := rfl
    have h2 : (↑(x :: xs) : Multiset Player) = x ::ₘ ↑xs := rfl
    rw [h1, h2, Multiset.cons_add, Multiset.cons_add,
      multiset_set xs i a (by simpa using h)]

theorem multiset_swapL {l : List Player} {i j : Nat} (hi : i < l.length)
    (hj : j < l.length) : (↑(swapL l i j) : Multiset Player) = ↑l := by
  have key : (↑(swapL l i j) : Multiset Player) + {(l.set i (l.getD j dp)).getD j dp} =
      ↑(l.set i (l.getD j dp)) + {l.getD i dp} :=
    multiset_set _ j _ (by simpa)
  have hgd : (l.set i (l.getD j dp)).getD j dp = l.getD j dp := by
    by_cases hij : i = j
    · subst hij; exact getD_set_self _ hi
    · exact getD_set_ne _ hij
  rw [hgd, multiset_set l i _ hi] at key
  exact add_right_cancel key

/-! ## Heap structure lemmas -/

theorem childOf_iff {i j : Nat} : childOf i j ↔ 0 < j ∧ i = (j - 1) / 2 := by
  unfold childOf; omega

theorem isHeap_iff_childOf {lt : Player → Player → Bool} {l : List Player} :
    IsHeap lt l ↔ ∀ i j, childOf i j → j < l.length →
      lt (l.getD j dp) (l.getD i dp) = false := by
  constructor
  · intro h i j hc hj
    rcases childOf_iff.mp hc with ⟨hj0, hi⟩
    subst hi
    exact h j hj hj0
  · intro h j hj hj0
    exact h ((j - 1) / 2) j (childOf_iff.mpr ⟨hj0, rfl⟩) hj

theorem pickSmallest_range (lt : Player → Player → Bool) (l : List Player) (i : Nat) :
    Online.pickSmallest lt l i = i ∨
      (i < Online.pickSmallest lt l i ∧ Online.pickSmallest lt l i < l.length) := by
  unfold Online.pickSmallest
  dsimp only
  by_cases h1 : 2 * i + 1 < l.length ∧ lt (l.getD (2 * i + 1) dp) (l.getD i dp) = true
  · rw [if_pos h1]
    by_cases h2 : 2 * i + 2 < l.length ∧
        lt (l.getD (2 * i + 2) dp) (l.getD (2 * i + 1) dp) = true
    · rw [if_pos h2]; right; exact ⟨by omega, h2.1⟩
    · rw [if_neg h2]; right; exact ⟨by omega, h1.1⟩
  · rw [if_neg h1]
    by_cases h2 : 2 * i + 2 < l.length ∧ lt (l.getD (2 * i + 2) dp) (l.getD i dp) = true
    · rw [if_pos h2]; right; exact ⟨by omega, h2.1⟩
    · rw [if_neg h2]; left; rfl

theorem pickSmallest_spec {lt : Player → Player → Bool} (hc : StrictCmp lt)
    (l : List Player) (i : Nat) :
    (Online.pickSmallest lt l i = i ∧
      ∀ j, childOf i j → j < l.length → lt (l.getD j dp) (l.getD i dp) = false) ∨
    (childOf i (Online.pickSmallest lt l i) ∧ Online.pickSmallest lt l i < l.length ∧
      lt (l.getD (Online.pickSmallest lt l i) dp) (l.getD i dp) = true ∧
      ∀ o, childOf i o → o ≠ Online.pickSmallest lt l i → o < l.length →
        lt (l.getD o dp) (l.getD (Online.pickSmallest lt l i) dp) = false) := by
  unfold Online.pickSmallest
  dsimp only
  by_cases h1 : 2 * i + 1 < l.length ∧ lt (l.getD (2 * i + 1) dp) (l.getD i dp) = true
  · rw [if_pos h1]
    by_cases h2 : 2 * i + 2 < l.length ∧
        lt (l.getD (2 * i + 2) dp) (l.getD (2 * i + 1) dp) = true
    · rw [if_pos h2]
      right
      refine ⟨Or.inr rfl, h2.1, hc.ltTrans h2.2 h1.2, ?_⟩
      intro o ho hne _
      rcases ho with ho | ho
      · subst ho; exact hc.asymm _ _ h2.2
      · omega
    · rw [if_neg h2]
      right
      refine ⟨Or.inl rfl, h1.1, h1.2, ?_⟩
      intro o ho hne hon
      rcases ho with ho | ho
      · omega
      · subst ho
        cases hb : lt (l.getD (2 * i + 2) dp) (l.getD (2 * i + 1) dp)
        · rfl
        · exact absurd ⟨hon, hb⟩ h2
  · rw [if_neg h1]
    by_cases h2 : 2 * i + 2 < l.length ∧ lt (l.getD (2 * i + 2) dp) (l.getD i dp) = true
    · rw [if_pos h2]
      right
      refine ⟨Or.inr rfl, h2.1, h2.2, ?_⟩
      intro o ho hne hon
      rcases ho with ho | ho
      · subst ho
        cases hb : lt (l.getD (2 * i + 1) dp) (l.getD (2 * i + 2) dp)
        · rfl
        · rcases hc.cotrans _ _ (l.getD i dp) hb with h | h
          · exact absurd ⟨hon, h⟩ h1
          · have := hc.asymm _ _ h2.2
            rw [this] at h
            exact absurd h (by simp)
      · omega
    · rw [if_neg h2]
      left
      refine ⟨rfl, ?_⟩
      intro j hj hjn
      rcases hj with hj | hj
      · subst hj
        cases hb : lt (l.getD (2 * i + 1) dp) (l.getD i dp)
        · rfl
        · exact absurd ⟨hjn, hb⟩ h1
      · subst hj
        cases hb : lt (l.getD (2 * i + 2) dp) (l.getD i dp)
        · rfl
        · exact absurd ⟨hjn, hb⟩ h2

theorem siftDownFuel_some (lt : Player → Player → Bool) :
    ∀ (fuel : Nat) (l : List Player) (i : Nat), l.length - i < fuel →
      ∃ r, Online.siftDownFuel lt fuel l i = some r := by
  intro fuel
  induction fuel with
  | zero => intro l i h; omega
  | succ fuel ih =>
    intro l i h
    simp only [Online.siftDownFuel]
    by_cases hs : Online.pickSmallest lt l i = i
    · rw [if_pos hs]; exact ⟨l, rfl⟩
    · rw [if_neg hs]
      rcases pickSmallest_range lt l i with h' | h'
      · exact absurd h' hs
      · exact ih _ _ (by rw [swapL_length]; omega)

theorem siftDownFuel_mono (lt : Player → Player → Bool) :
    ∀ (f1 f2 : Nat) (l : List Player) (i : Nat) (r : List Player),
      Online.siftDownFuel lt f1 l i = some r → f1 ≤ f2 →
      Online.siftDownFuel lt f2 l i = some r := by
  intro f1
  induction f1 with
  | zero => intro f2 l i r h; exact absurd h (by simp [Online.siftDownFuel])
  | succ f1 ih =>
    intro f2 l i r h hle
    match f2 with
    | 0 => omega
    | f2 + 1 =>
      simp only [Online.siftDownFuel] at h ⊢
      by_cases hs : Online.pickSmallest lt l i = i
      · rw [if_pos hs] at h ⊢; exact h
      · rw [if_neg hs] at h ⊢
        exact ih _ _ _ _ h (by omega)

theorem siftDownFuel_siftDown (lt : Player → Player → Bool) (l : List Player) (i : Nat) :
    Online.siftDownFuel lt (l.length + 1) l i = some (Online.siftDown lt l i) := by
  rcases siftDownFuel_some lt (l.length + 1) l i (by omega) with ⟨r, hr⟩
  rw [Online.siftDown, hr]
  rfl

theorem siftDownFuel_length {lt : Player → Player → Bool} :
    ∀ (fuel : Nat) (l : List Player) (i : Nat) (r : List Player),
      Online.siftDownFuel lt fuel l i = some r → r.length = l.length := by
  intro fuel
  induction fuel with
  | zero => intro l i r h; exact absurd h (by simp [Online.siftDownFuel])
  | succ fuel ih =>
    intro l i r h
    simp only [Online.siftDownFuel] at h
    by_cases hs : Online.pickSmallest lt l i = i
    · rw [if_pos hs] at h
      cases h
      rfl
    · rw [if_neg hs] at h
      rw [ih _ _ _ h, swapL_length]

theorem siftDownFuel_multiset {lt : Player → Player → Bool} :
    ∀ (fuel : Nat) (l : List Player) (i : Nat) (r : List Player),
      Online.siftDownFuel lt fuel l i = some r →
      (↑r : Multiset Player) = ↑l := by
  intro fuel
  induction fuel with
  | zero => intro l i r h; exact absurd h (by simp [Online.siftDownFuel])
  | succ fuel ih =>
    intro l i r h
    simp only [Online.siftDownFuel] at h
    by_cases hs : Online.pickSmallest lt l i = i
    · rw [if_pos hs] at h
      cases h
      rfl
    · rw [if_neg hs] at h
      rcases pickSmallest_range lt l i with h' | h'
      · exact absurd h' hs
      · rw [ih _ _ _ h]
        exact multiset_swapL (by omega) h'.2

theorem almostHeap_step {lt : Player → Player → Bool} {l : List Player} {i s : Nat}
    (hc : StrictCmp lt) (ha : AlmostHeap lt l i) (hcs : childOf i s)
    (hsn : s < l.length) (hlt : lt (l.getD s dp) (l.getD i dp) = true)
    (hsib : ∀ o, childOf i o → o ≠ s → o < l.length →
      lt (l.getD o dp) (l.getD s dp) = false) :
    AlmostHeap lt (swapL l i s) s := by
  have his : i < s := by rcases hcs with h | h <;> omega
  have hin : i < l.length := by omega
  constructor
  · intro x j hxj hjn hxs
    rw [swapL_length] at hjn
    by_cases hxi : x = i
    · rw [hxi] at hxj ⊢
      by_cases hjs : j = s
      · rw [hjs]
        rw [getD_swapL_right hsn, getD_swapL_left hin]
        exact hc.asymm _ _ hlt
      · have hji : j ≠ i := by rcases hxj with h | h <;> omega
        rw [getD_swapL_other hji hjs, getD_swapL_left hin]
        exact hsib j hxj hjs hjn
    · by_cases hji : j = i
      · rw [hji] at hxj ⊢
        have hxpar : childOf x i := hxj
        rw [getD_swapL_left hin, getD_swapL_other hxi hxs]
        exact ha.2 s hcs hsn x hxpar
      · by_cases hjs : j = s
        · exact absurd (hjs ▸ hxj) (by
            intro hcon
            rcases hcon with h | h <;> rcases hcs with h' | h' <;> omega)
        · rw [getD_swapL_other hji hjs, getD_swapL_other hxi hxs]
          exact ha.1 x j hxj hjn hxi
  · intro j hsj hjn p hps
    rw [swapL_length] at hjn
    have hpi : p = i := by rcases hps with h | h <;> rcases hcs with h' | h' <;> omega
    rw [hpi]
    have hji : j ≠ i := by rcases hsj with h | h <;> omega
    have hjs : j ≠ s := by rcases hsj with h | h <;> omega
    rw [getD_swapL_other hji hjs, getD_swapL_left hin]
    exact ha.1 s j hsj hjn (by omega)

theorem siftDownFuel_heap {lt : Player → Player → Bool} (hc : StrictCmp lt) :
    ∀ (fuel : Nat) (l : List Player) (i : Nat) (r : List Player),
      AlmostHeap lt l i → Online.siftDownFuel lt fuel l i = some r →
      IsHeap lt r := by
  intro fuel
  induction fuel with
  | zero => intro l i r _ h; exact absurd h (by simp [Online.siftDownFuel])
  | succ fuel ih =>
    intro l i r ha h
    simp only [Online.siftDownFuel] at h
    rcases pickSmallest_spec hc l i with ⟨hsi, hch⟩ | ⟨hcs, hsn, hlt, hsib⟩
    · rw [if_pos hsi] at h
      cases h
      rw [isHeap_iff_childOf]
      intro x j hxj hjn
      by_cases hxi : x = i
      · subst hxi; exact hch j hxj hjn
      · exact ha.1 x j hxj hjn hxi
    · have hne : Online.pickSmallest lt l i ≠ i := by
        rcases hcs with h' | h' <;> omega
      rw [if_neg hne] at h
      exact ih _ _ _ (almostHeap_step hc ha hcs hsn hlt hsib) h

theorem isHeap_root_min {lt : Player → Player → Bool} {l : List Player}
    (hc : StrictCmp lt) (hh : IsHeap lt l) :
    ∀ j, j < l.length → lt (l.getD j dp) (l.getD 0 dp) = false := by
  intro j
  induction j using Nat.strong_induction_on with
  | _ j ih =>
    intro hj
    rcases Nat.eq_zero_or_pos j with h0 | h0
    · subst h0; exact hc.irrefl _
    · have hpar := hh j hj h0
      have hih := ih ((j - 1) / 2) (by omega) (by omega)
      cases hcontra : lt (l.getD j dp) (l.getD 0 dp)
      · rfl
      · rcases hc.cotrans _ _ (l.getD ((j - 1) / 2) dp) hcontra with h | h
        · rw [hpar] at h; exact absurd h (by simp)
        · rw [hih] at h; exact absurd h (by simp)

/-! ## siftDown and replaceMin facts -/

theorem siftDown_length (lt : Player → Player → Bool) (l : List Player) (i : Nat) :
    (Online.siftDown lt l i).length = l.length :=
  siftDownFuel_length _ _ _ _ (siftDownFuel_siftDown lt l i)

theorem siftDown_multiset (lt : Player → Player → Bool) (l : List Player) (i : Nat) :
    (↑(Online.siftDown lt l i) : Multiset Player) = ↑l :=
  siftDownFuel_multiset _ _ _ _ (siftDownFuel_siftDown lt l i)

theorem siftDown_heap {lt : Player → Player → Bool} {l : List Player} {i : Nat}
    (hc : StrictCmp lt) (ha : AlmostHeap lt l i) : IsHeap lt (Online.siftDown lt l i) :=
  siftDownFuel_heap hc _ _ _ _ ha (siftDownFuel_siftDown lt l i)

theorem almostHeap_set_root {lt : Player → Player → Bool} {l : List Player}
    (t : Player) (hh : IsHeap lt l) : AlmostHeap lt (l.set 0 t) 0 := by
  constructor
  · intro x j hxj hjn hx0
    have hxj' : x < j := by rcases hxj with h | h <;> omega
    have hj0 : j ≠ 0 := by omega
    rw [getD_set_ne _ (fun h => hj0 h.symm), getD_set_ne _ (fun h => hx0 h.symm)]
    exact isHeap_iff_childOf.mp hh x j hxj (by simpa using hjn)
  · intro j _ _ p hp
    rcases hp with h | h <;> omega

theorem replaceMin_heap {l : List Player} {t : Player} (hh : IsHeap Player.ltb l) :
    IsHeap Player.ltb (Online.replaceMin l t) := by
  unfold Online.replaceMin
  by_cases h0 : l.length = 0
  · rw [if_pos h0]; exact hh
  · rw [if_neg h0]
    exact siftDown_heap strictCmp_ltb (almostHeap_set_root t hh)

theorem replaceMin_multiset {l : List Player} (t : Player) (h0 : l ≠ []) :
    (↑(Online.replaceMin l t) : Multiset Player) + {l.getD 0 dp} = ↑l + {t} := by
  unfold Online.replaceMin
  rw [if_neg (by simpa using h0), siftDown_multiset]
  exact multiset_set l 0 t (by cases l with
    | nil => exact absurd rfl h0
    | cons a as => simp)

theorem replaceMin_length (l : List Player) (t : Player) :
    (Online.replaceMin l t).length = l.length := by
  unfold Online.replaceMin
  by_cases h0 : l.length = 0
  · rw [if_pos h0]
  · rw [if_neg h0, siftDown_length]
    simp

theorem isHeap_root_min_level {l : List Player} (hh : IsHeap Player.ltb l) :
    ∀ q ∈ l, (l.getD 0 dp).level_ ≤ q.level_ := by
  intro q hq
  rcases List.mem_iff_getElem.mp hq with ⟨j, hj, hget⟩
  have := isHeap_root_min strictCmp_ltb hh j hj
  rw [List.getD_eq_getElem _ _ hj, hget] at this
  simp only [Player.ltb, decide_eq_false_iff_not] at this
  omega

/-! ## Sorted ranges are heaps -/

theorem sorted_asc_isHeap {l : List Player} (hs : List.Sorted levelLe l) :
    IsHeap Player.ltb l := by
  intro j hj hj0
  have hp : (j - 1) / 2 < j := by omega
  have hrel := List.pairwise_iff_getElem.mp hs ((j - 1) / 2) j (by omega) hj hp
  rw [List.getD_eq_getElem _ _ hj, List.getD_eq_getElem _ _ (by omega : (j - 1) / 2 < l.length)]
  simp only [Player.ltb, decide_eq_false_iff_not]
  unfold levelLe at hrel
  omega

theorem sorted_desc_isHeap {l : List Player} (hs : List.Sorted (fun p q => levelLe q p) l) :
    IsHeap Player.gtb l := by
  intro j hj hj0
  have hp : (j - 1) / 2 < j := by omega
  have hrel := List.pairwise_iff_getElem.mp hs ((j - 1) / 2) j (by omega) hj hp
  rw [List.getD_eq_getElem _ _ hj, List.getD_eq_getElem _ _ (by omega : (j - 1) / 2 < l.length)]
  simp only [Player.gtb, decide_eq_false_iff_not]
  unfold levelLe at hrel
  omega

theorem makeHeapMin_isHeap (l : List Player) : IsHeap Player.ltb (makeHeapMin l) :=
  sorted_asc_isHeap (List.sorted_insertionSort levelLe l)

theorem makeHeapMin_perm (l : List Player) : List.Perm (makeHeapMin l) l :=
  List.perm_insertionSort levelLe l

theorem makeHeapMax_isHeap (l : List Player) : IsHeap Player.gtb (makeHeapMax l) :=
  sorted_desc_isHeap (List.sorted_insertionSort (fun p q => levelLe q p) l)

theorem makeHeapMax_perm (l : List Player) : List.Perm (makeHeapMax l) l :=
  List.perm_insertionSort (fun p q => levelLe q p) l

theorem sortPlayers_perm (l : List Player) : List.Perm (sortPlayers l) l :=
  List.perm_insertionSort levelLe l

theorem sortPlayers_sorted (l : List Player) : List.Sorted levelLe (sortPlayers l) :=
  List.sorted_insertionSort levelLe l

theorem sortDescLevels_sorted (ps : List Player) : List.Sorted geN (sortDescLevels ps) :=
  List.sorted_insertionSort geN (ps.map Player.level_)

theorem sortDescLevels_coe (ps : List Player) :
    (↑(sortDescLevels ps) : Multiset Nat) = levelsL ps :=
  Multiset.coe_eq_coe.mpr (List.perm_insertionSort geN (ps.map Player.level_))

theorem sortDescLevels_length (ps : List Player) :
    (sortDescLevels ps).length = ps.length := by
  unfold sortDescLevels
  rw [List.length_insertionSort, List.length_map]

/-! ## Top sub-multisets -/

theorem multiset_exists_min (B : Multiset Nat) (hB : B ≠ 0) :
    ∃ r ∈ B, ∀ y ∈ B, r ≤ y := by
  induction B using Multiset.induction_on with
  | empty => exact absurd rfl hB
  | cons a s ih =>
    rcases eq_or_ne s 0 with h0 | h0
    · subst h0
      exact ⟨a, Multiset.mem_cons_self a 0, by
        intro y hy
        rcases Multiset.mem_cons.mp hy with h | h
        · omega
        · exact absurd h (by simp)⟩
    · rcases ih h0 with ⟨r, hr, hmin⟩
      rcases Nat.le_total a r with h | h
      · refine ⟨a, Multiset.mem_cons_self a s, ?_⟩
        intro y hy
        rcases Multiset.mem_cons.mp hy with hy | hy
        · omega
        · have := hmin y hy; omega
      · refine ⟨r, Multiset.mem_cons_of_mem hr, ?_⟩
        intro y hy
        rcases Multiset.mem_cons.mp hy with hy | hy
        · omega
        · exact hmin y hy

theorem topsub_decomp {m : Nat} {B P : Multiset Nat} (h : IsTopSub m B P) {r : Nat}
    (hrB : r ∈ B) (hmin : ∀ y ∈ B, r ≤ y) :
    B = P.filter (fun x => r < x) +
      Multiset.replicate (m - Multiset.card (P.filter (fun x => r < x))) r := by
  have hPB : B + (P - B) = P := by
    rw [add_comm]; exact tsub_add_cancel_of_le h.1
  have hfP : P.filter (fun x => r < x) = B.filter (fun x => r < x) := by
    rw [← hPB, Multiset.filter_add]
    have hz : (P - B).filter (fun x => r < x) = 0 := by
      rw [Multiset.filter_eq_nil]
      intro a ha
      have := h.2.2 a ha r hrB
      omega
    rw [hz, add_zero]
  have hsplit : B.filter (fun x => r < x) + B.filter (fun x => ¬ r < x) = B :=
    Multiset.filter_add_not _ B
  have hrep : B.filter (fun x => ¬ r < x) =
      Multiset.replicate (Multiset.card (B.filter (fun x => ¬ r < x))) r := by
    rw [Multiset.eq_replicate]
    refine ⟨rfl, ?_⟩
    intro b hb
    rw [Multiset.mem_filter] at hb
    have := hmin b hb.1
    omega
  have hcards : Multiset.card (B.filter (fun x => r < x)) +
      Multiset.card (B.filter (fun x => ¬ r < x)) = m := by
    have hc := congrArg Multiset.card hsplit
    rw [Multiset.card_add] at hc
    rw [hc, h.2.1]
  rw [hfP]
  have hcount : Multiset.card (B.filter (fun x => ¬ r < x)) =
      m - Multiset.card (B.filter (fun x => r < x)) := by omega
  rw [← hcount, ← hrep, hsplit]

theorem topsub_card_lt {P : Multiset Nat} {r r' : Nat} (hlt : r < r') :
    Multiset.card (P.filter (fun x => r' < x)) + P.count r' ≤
      Multiset.card (P.filter (fun x => r < x)) := by
  have hle : P.filter (fun x => r' < x) + P.filter (fun x => r' = x) ≤
      P.filter (fun x => r < x) := by
    rw [Multiset.le_iff_count]
    intro v
    rw [Multiset.count_add, Multiset.count_filter, Multiset.count_filter,
      Multiset.count_filter]
    split_ifs <;> omega
  have := Multiset.card_le_card hle
  rw [Multiset.card_add, ← Multiset.count_eq_card_filter_eq] at this
  exact this

theorem topsub_min_eq {m : Nat} {B B' P : Multiset Nat} {r r' : Nat}
    (h : IsTopSub m B P) (h' : IsTopSub m B' P)
    (hrB : r ∈ B) (hmin : ∀ y ∈ B, r ≤ y)
    (hrB' : r' ∈ B') (hmin' : ∀ y ∈ B', r' ≤ y) : ¬ r < r' := by
  intro hlt
  have hd := topsub_decomp h hrB hmin
  have hd' := topsub_decomp h' hrB' hmin'
  -- r is in B but not in the filtered part, so the replicate part is nonempty
  have hrepB : 1 ≤ m - Multiset.card (P.filter (fun x => r < x)) := by
    by_contra hc
    push_neg at hc
    rw [Nat.lt_one_iff] at hc
    rw [hd, hc, Multiset.replicate_zero, add_zero, Multiset.mem_filter] at hrB
    omega
  -- r' occurs in B' at least (m - card filter') times, and B' ≤ P
  have hcount' : m - Multiset.card (P.filter (fun x => r' < x)) ≤ P.count r' := by
    have hcB' : B'.count r' = Multiset.count r' (P.filter (fun x => r' < x)) +
        (m - Multiset.card (P.filter (fun x => r' < x))) := by
      rw [hd', Multiset.count_add, Multiset.count_replicate, if_pos rfl]
    have hle := Multiset.le_iff_count.mp h'.1 r'
    rw [hcB'] at hle
    omega
  have hcards := topsub_card_lt (P := P) hlt
  have hfle : Multiset.card (P.filter (fun x => r < x)) ≤ m - 1 := by
    have hc := congrArg Multiset.card hd
    rw [Multiset.card_add, Multiset.card_replicate, h.2.1] at hc
    omega
  omega

theorem topsub_unique {m : Nat} {B B' P : Multiset Nat}
    (h : IsTopSub m B P) (h' : IsTopSub m B' P) : B = B' := by
  rcases Nat.eq_zero_or_pos m with hm | hm
  · have hB : B = 0 := Multiset.card_eq_zero.mp (by rw [h.2.1, hm])
    have hB' : B' = 0 := Multiset.card_eq_zero.mp (by rw [h'.2.1, hm])
    rw [hB, hB']
  · obtain ⟨r, hrB, hmin⟩ := multiset_exists_min B (by
      intro hc
      rw [hc] at h
      have := h.2.1
      simp at this
      omega)
    obtain ⟨r', hrB', hmin'⟩ := multiset_exists_min B' (by
      intro hc
      rw [hc] at h'
      have := h'.2.1
      simp at this
      omega)
    have h1 := topsub_min_eq h h' hrB hmin hrB' hmin'
    have h2 := topsub_min_eq h' h hrB' hmin' hrB hmin
    have hrr : r = r' := by omega
    rw [topsub_decomp h hrB hmin, topsub_decomp h' hrB' hmin', hrr]

theorem topsub_cons_small {m : Nat} {B P : Multiset Nat} {x : Nat}
    (h : IsTopSub m B P) (hx : ∀ y ∈ B, x ≤ y) : IsTopSub m B (x ::ₘ P) := by
  refine ⟨le_trans h.1 (Multiset.le_cons_self P x), h.2.1, ?_⟩
  have hsub : (x ::ₘ P) - B = x ::ₘ (P - B) := by
    ext v
    rw [Multiset.count_sub, Multiset.count_cons, Multiset.count_cons,
      Multiset.count_sub]
    have := Multiset.le_iff_count.mp h.1 v
    split_ifs <;> omega
  intro z hz y hy
  rw [hsub] at hz
  rcases Multiset.mem_cons.mp hz with hz | hz
  · rw [hz]; exact hx y hy
  · exact h.2.2 z hz y hy

theorem topsub_replace {m : Nat} {B P : Multiset Nat} {r x : Nat}
    (h : IsTopSub m B P) (hrB : r ∈ B) (hmin : ∀ y ∈ B, r ≤ y) (hrx : r < x) :
    IsTopSub m (x ::ₘ B.erase r) (x ::ₘ P) := by
  refine ⟨Multiset.cons_le_cons x (le_trans (Multiset.erase_le r B) h.1), ?_, ?_⟩
  · rw [Multiset.card_cons, Multiset.card_erase_of_mem hrB, Nat.pred_eq_sub_one, h.2.1]
    have : 1 ≤ m := by
      have := h.2.1
      rcases Nat.eq_zero_or_pos m with h0 | h0
      · rw [h0] at this
        rw [Multiset.card_eq_zero.mp this] at hrB
        exact absurd hrB (by simp)
      · exact h0
    omega
  · have hsub : (x ::ₘ P) - (x ::ₘ B.erase r) = r ::ₘ (P - B) := by
      ext v
      have hcle := Multiset.le_iff_count.mp h.1 v
      have hc1 : 1 ≤ B.count r := Multiset.one_le_count_iff_mem.mpr hrB
      have hcler := Multiset.le_iff_count.mp h.1 r
      by_cases hvr : v = r
      · have hver : (B.erase r).count r = B.count r - 1 := Multiset.count_erase_self r B
        simp only [Multiset.count_sub, Multiset.count_cons, hvr, hver]
        split_ifs <;> omega
      · have hver : (B.erase r).count v = B.count v := Multiset.count_erase_of_ne hvr B
        simp only [Multiset.count_sub, Multiset.count_cons, hver]
        split_ifs <;> omega
    rw [hsub]
    intro z hz y hy
    rcases Multiset.mem_cons.mp hz with hz | hz
    · rw [hz]
      rcases Multiset.mem_cons.mp hy with hy | hy
      · rw [hy]; omega
      · exact hmin y (Multiset.mem_of_mem_erase hy)
    · rcases Multiset.mem_cons.mp hy with hy | hy
      · have := h.2.2 z hz r hrB
        rw [hy]; omega
      · exact h.2.2 z hz y (Multiset.mem_of_mem_erase hy)

/-! ## Level multiset helpers -/

theorem getD_zero_mem {l : List Player} (h : l ≠ []) : l.getD 0 dp ∈ l := by
  cases l with
  | nil => exact absurd rfl h
  | cons a as => exact List.mem_cons_self a as

theorem levelsL_card (l : List Player) : Multiset.card (levelsL l) = l.length := by
  simp [levelsL]

theorem levelsL_perm {l l' : List Player} (h : List.Perm l l') : levelsL l = levelsL l' :=
  Multiset.coe_eq_coe.mpr (h.map Player.level_)

theorem levelsL_append (l : List Player) (p : Player) :
    levelsL (l ++ [p]) = p.level_ ::ₘ levelsL l := by
  unfold levelsL
  rw [Multiset.cons_coe]
  apply Multiset.coe_eq_coe.mpr
  rw [List.map_append]
  simp only [List.map_cons, List.map_nil]
  exact List.perm_append_singleton _ _

theorem levelsL_coe_eq {l l' : List Player} (h : (↑l : Multiset Player) = ↑l') :
    levelsL l = levelsL l' :=
  levelsL_perm (Multiset.coe_eq_coe.mp h)

/-! ## Top prefix of a descending sorted list -/

theorem topsub_take_sorted {L : List Nat} (hs : List.Sorted geN L) {m : Nat}
    (hm : m ≤ L.length) : IsTopSub m ↑(L.take m) ↑L := by
  refine ⟨Multiset.coe_le.mpr (L.take_sublist m).subperm,
    by simp [List.length_take_of_le hm], ?_⟩
  have hLP : (↑L : Multiset Nat) = ↑(L.take m) + ↑(L.drop m) := by
    conv_lhs => rw [← List.take_append_drop m L]
    rw [← Multiset.coe_add]
  have hdc : (↑L : Multiset Nat) - ↑(L.take m) = ↑(L.drop m) := by
    rw [hLP]
    ext v
    rw [Multiset.count_sub, Multiset.count_add]
    omega
  rw [hdc]
  intro z hz y hy
  rw [Multiset.mem_coe] at hz hy
  rcases List.mem_iff_getElem.mp hz with ⟨a, ha, hza⟩
  rcases List.mem_iff_getElem.mp hy with ⟨b, hb, hyb⟩
  have hb' : b < m := by
    have := hb
    rw [List.length_take_of_le hm] at this
    exact this
  have ha' : m + a < L.length := by
    have := ha
    rw [List.length_drop] at this
    omega
  have hza' : z = L[m + a] := by
    rw [← hza]
    exact List.getElem_drop ..
  have hbL : b < L.length := by omega
  have hyb' : y = L[b] := by
    rw [← hyb]
    exact List.getElem_take ..
  have hrel := List.pairwise_iff_getElem.mp hs b (m + a) (by omega) ha' (by omega)
  unfold geN at hrel
  rw [hza', hyb']
  exact hrel

theorem sorted_take_min {L : List Nat} (hs : List.Sorted geN L) {m : Nat}
    (hm1 : 1 ≤ m) (hm : m ≤ L.length) :
    L.getD (m - 1) 0 ∈ L.take m ∧ ∀ y ∈ L.take m, L.getD (m - 1) 0 ≤ y := by
  constructor
  · have hlt : m - 1 < (L.take m).length := by
      rw [List.length_take_of_le hm]; omega
    have hmL : m - 1 < L.length := by omega
    have h1 : (L.take m)[m - 1] = L[m - 1] := List.getElem_take ..
    rw [List.getD_eq_getElem _ _ (by omega)]
    rw [← h1]
    exact List.getElem_mem _
  · intro y hy
    rcases List.mem_iff_getElem.mp hy with ⟨b, hb, hyb⟩
    rw [List.length_take_of_le hm] at hb
    rw [List.getD_eq_getElem _ _ (by omega : m - 1 < L.length)]
    have hbL : b < L.length := by omega
    have hby : y = L[b] := by
      rw [← hyb]
      exact List.getElem_take ..
    rcases Nat.lt_or_ge b (m - 1) with hlt | hge
    · have hrel := List.pairwise_iff_getElem.mp hs b (m - 1) (by omega) (by omega) hlt
      unfold geN at hrel
      rw [hby]
      exact hrel
    · have hbe : b = m - 1 := by omega
      subst hbe
      rw [hby]

/-- The root of a min-heap whose level multiset is a top-`R` subset of
the consumed levels holds exactly the `R`-th highest level consumed. -/
theorem heap_root_eq_nthHighest {R : Nat} {tp ps : List Player}
    (hh : IsHeap Player.ltb tp) (hne : tp ≠ [])
    (htop : IsTopSub R (levelsL tp) (levelsL ps)) (hlen : tp.length = R)
    (hR : 1 ≤ R) : (tp.getD 0 dp).level_ = nthHighest R ps := by
  have hsL : List.Sorted geN (sortDescLevels ps) := sortDescLevels_sorted ps
  have hcoeL : (↑(sortDescLevels ps) : Multiset Nat) = levelsL ps := sortDescLevels_coe ps
  have hRlen : R ≤ (sortDescLevels ps).length := by
    have h1 := Multiset.card_le_card htop.1
    rw [htop.2.1, levelsL_card] at h1
    rw [sortDescLevels_length]
    exact h1
  have htop' : IsTopSub R (levelsL tp) ↑(sortDescLevels ps) := by
    rw [hcoeL]; exact htop
  have heq : levelsL tp = ↑((sortDescLevels ps).take R) :=
    topsub_unique htop' (topsub_take_sorted hsL hRlen)
  have hmem : (tp.getD 0 dp).level_ ∈ levelsL tp := by
    unfold levelsL
    rw [Multiset.mem_coe]
    exact List.mem_map_of_mem _ (getD_zero_mem hne)
  have hmin : ∀ y ∈ levelsL tp, (tp.getD 0 dp).level_ ≤ y := by
    intro y hy
    unfold levelsL at hy
    rw [Multiset.mem_coe, List.mem_map] at hy
    rcases hy with ⟨q, hq, hql⟩
    rw [← hql]
    exact isHeap_root_min_level hh q hq
  obtain ⟨hmem2, hmin2⟩ := sorted_take_min hsL hR hRlen
  have ha : (tp.getD 0 dp).level_ ≤ (sortDescLevels ps).getD (R - 1) 0 :=
    hmin _ (by rw [heq]; exact Multiset.mem_coe.mpr hmem2)
  have hb : (sortDescLevels ps).getD (R - 1) 0 ≤ (tp.getD 0 dp).level_ := by
    have hmm : (tp.getD 0 dp).level_ ∈ (sortDescLevels ps).take R := by
      rw [heq] at hmem
      exact Multiset.mem_coe.mp hmem
    exact hmin2 _ hmm
  unfold nthHighest
  omega

/-! ## Cutoffs map lemmas -/

theorem front_eq_ok {l : List Player} (h : l ≠ []) :
    front l = Except.ok (l.getD 0 dp) := by
  cases l with
  | nil => exact absurd rfl h
  | cons a as => rfl

theorem cutContains_iff (m : List (Nat × Nat)) (k : Nat) :
    cutContains m k = true ↔ ∃ v, (k, v) ∈ m := by
  unfold cutContains
  rw [List.any_eq_true]
  constructor
  · rintro ⟨kv, hm, hk⟩
    rw [beq_iff_eq] at hk
    exact ⟨kv.2, by rw [← hk]; exact hm⟩
  · rintro ⟨v, hm⟩
    exact ⟨(k, v), hm, by rw [beq_iff_eq]⟩

theorem cutAssign_new {m : List (Nat × Nat)} {k : Nat} (v : Nat)
    (h : cutContains m k = false) : cutAssign m k v = (k, v) :: m := by
  unfold cutAssign
  rw [h]
  simp

theorem mkCuts_keys_le (R : Nat) (c : List Player) :
    ∀ n kv, kv ∈ mkCuts R c n → kv.1 ≤ n := by
  intro n
  induction n with
  | zero => intro kv h; exact absurd h (by simp [mkCuts])
  | succ n ih =>
    intro kv h
    unfold mkCuts at h
    by_cases hr : (n + 1) % R = 0
    · rw [if_pos hr] at h
      rcases List.mem_cons.mp h with h | h
      · rw [h]
      · have := ih kv h; omega
    · rw [if_neg hr] at h
      have := ih kv h; omega

theorem mkCuts_contains (R : Nat) (c : List Player) (n k : Nat) :
    cutContains (mkCuts R c n) k = true ↔ 1 ≤ k ∧ k ≤ n ∧ k % R = 0 := by
  induction n with
  | zero =>
    rw [cutContains_iff]
    constructor
    · rintro ⟨v, hm⟩; exact absurd hm (by simp [mkCuts])
    · rintro ⟨h1, h2, _⟩; omega
  | succ n ih =>
    unfold mkCuts
    by_cases hr : (n + 1) % R = 0
    · rw [if_pos hr]
      rw [cutContains_iff]
      constructor
      · rintro ⟨v, hm⟩
        rcases List.mem_cons.mp hm with h | h
        · have hk : k = n + 1 := congrArg Prod.fst h
          refine ⟨by omega, by omega, by rw [hk]; exact hr⟩
        · have := (cutContains_iff _ _).mpr ⟨v, h⟩
          rw [ih] at this
          exact ⟨this.1, by omega, this.2.2⟩
      · rintro ⟨h1, h2, h3⟩
        by_cases hk : k = n + 1
        · exact ⟨nthHighest R (c.take (n + 1)), by rw [hk]; exact List.mem_cons_self _ _⟩
        · have hmem := (cutContains_iff (mkCuts R c n) k).mp
            (ih.mpr ⟨h1, by omega, h3⟩)
          rcases hmem with ⟨v, hv⟩
          exact ⟨v, List.mem_cons_of_mem _ hv⟩
    · rw [if_neg hr, ih]
      constructor
      · rintro ⟨h1, h2, h3⟩; exact ⟨h1, by omega, h3⟩
      · rintro ⟨h1, h2, h3⟩
        refine ⟨h1, ?_, h3⟩
        by_cases hk : k = n + 1
        · rw [hk] at h3; exact absurd h3 hr
        · omega

theorem mkCuts_lookup (R : Nat) (c : List Player) (n k : Nat) :
    cutLookup (mkCuts R c n) k =
      if 1 ≤ k ∧ k ≤ n ∧ k % R = 0 then some (nthHighest R (c.take k)) else none := by
  induction n with
  | zero =>
    have h : ¬ (1 ≤ k ∧ k ≤ 0 ∧ k % R = 0) := by omega
    rw [if_neg h]
    rfl
  | succ n ih =>
    unfold mkCuts
    by_cases hr : (n + 1) % R = 0
    · rw [if_pos hr]
      unfold cutLookup
      rw [List.find?_cons]
      by_cases hk : k = n + 1
      · subst hk
        have hbeq : ((n + 1, nthHighest R (c.take (n + 1))).1 == n + 1) = true := by
          rw [beq_iff_eq]
        rw [hbeq]
        rw [if_pos ⟨by omega, by omega, hr⟩]
        rfl
      · have hbeq : ((n + 1, nthHighest R (c.take (n + 1))).1 == k) = false := by
          rw [beq_eq_false_iff_ne]
          simp only [ne_eq]
          omega
        rw [hbeq]
        have hih := ih
        unfold cutLookup at hih
        rw [hih]
        by_cases hcond : 1 ≤ k ∧ k ≤ n ∧ k % R = 0
        · rw [if_pos hcond, if_pos ⟨hcond.1, by omega, hcond.2.2⟩]
        · rw [if_neg hcond, if_neg (by
            rintro ⟨h1, h2, h3⟩
            exact hcond ⟨h1, by omega, h3⟩)]
    · rw [if_neg hr, ih]
      by_cases hcond : 1 ≤ k ∧ k ≤ n ∧ k % R = 0
      · rw [if_pos hcond, if_pos ⟨hcond.1, by omega, hcond.2.2⟩]
      · rw [if_neg hcond, if_neg (by
          rintro ⟨h1, h2, h3⟩
          by_cases hk : k = n + 1
          · rw [hk] at h3; exact absurd h3 hr
          · exact hcond ⟨h1, by omega, h3⟩)]

theorem mkCuts_nodup (R : Nat) (c : List Player) (n : Nat) :
    ((mkCuts R c n).map Prod.fst).Nodup := by
  induction n with
  | zero => simp [mkCuts]
  | succ n ih =>
    unfold mkCuts
    by_cases hr : (n + 1) % R = 0
    · rw [if_pos hr]
      rw [List.map_cons, List.nodup_cons]
      refine ⟨?_, ih⟩
      intro hmem
      rcases List.mem_map.mp hmem with ⟨kv, hkv, hfst⟩
      have := mkCuts_keys_le R c n kv hkv
      omega
    · rw [if_neg hr]; exact ih

theorem mkCuts_append_stable (R : Nat) (c : List Player) (p : Player) :
    ∀ n, n ≤ c.length → mkCuts R (c ++ [p]) n = mkCuts R c n := by
  intro n
  induction n with
  | zero => intro _; rfl
  | succ n ih =>
    intro h
    unfold mkCuts
    rw [List.take_append_of_le_length (by omega), ih (by omega)]

theorem topsub_self (B : Multiset Nat) : IsTopSub (Multiset.card B) B B := by
  refine ⟨le_refl B, rfl, ?_⟩
  intro z hz
  have hBB : B - B = 0 := by simp
  rw [hBB] at hz
  exact absurd hz (Multiset.not_mem_zero z)

theorem levelsL_eq_map (l : List Player) :
    levelsL l = Multiset.map Player.level_ ↑l := by
  unfold levelsL
  rw [Multiset.map_coe]

/-! ## Buffer step helpers -/

theorem length_pos_ne_nil {l : List Player} (h : 0 < l.length) : l ≠ [] := by
  intro he
  rw [he] at h
  simp at h

theorem makeHeapMin_length (l : List Player) : (makeHeapMin l).length = l.length :=
  (makeHeapMin_perm l).length_eq

theorem stepBuffer_below {R : Nat} {tp : List Player} (p : Player) (h : tp.length < R) :
    Online.stepBuffer R tp p =
      .ok (if (tp ++ [p]).length = R then makeHeapMin (tp ++ [p]) else tp ++ [p]) := by
  unfold Online.stepBuffer
  rw [if_pos h]

theorem stepBuffer_full {R : Nat} {tp : List Player} (p : Player) (h : ¬ tp.length < R)
    (hne : tp ≠ []) :
    Online.stepBuffer R tp p =
      .ok (if Player.ltb (tp.getD 0 dp) p then Online.replaceMin tp p else tp) := by
  unfold Online.stepBuffer
  rw [if_neg h, front_eq_ok hne]
  dsimp only
  split
  next => rfl
  next => rfl

theorem heap_root_min_levels {tp : List Player} (hh : IsHeap Player.ltb tp) :
    ∀ y ∈ levelsL tp, (tp.getD 0 dp).level_ ≤ y := by
  intro y hy
  unfold levelsL at hy
  rw [Multiset.mem_coe, List.mem_map] at hy
  rcases hy with ⟨q, hq, hql⟩
  rw [← hql]
  exact isHeap_root_min_level hh q hq

theorem root_level_mem {tp : List Player} (hne : tp ≠ []) :
    (tp.getD 0 dp).level_ ∈ levelsL tp := by
  unfold levelsL
  rw [Multiset.mem_coe]
  exact List.mem_map_of_mem _ (getD_zero_mem hne)

theorem topsub_of_perm {l c : List Player} (hperm : List.Perm l c) :
    IsTopSub c.length (levelsL l) (levelsL c) := by
  rw [levelsL_perm hperm]
  have h := topsub_self (levelsL c)
  rwa [levelsL_card] at h

theorem levels_of_multiset_eq {l l' : List Player} {a b : Player}
    (h : (↑l : Multiset Player) + {a} = ↑l' + {b}) :
    levelsL l + {a.level_} = levelsL l' + {b.level_} := by
  have hmap := congrArg (Multiset.map Player.level_) h
  rw [Multiset.map_add, Multiset.map_add, Multiset.map_singleton,
    Multiset.map_singleton] at hmap
  rw [levelsL_eq_map, levelsL_eq_map]
  exact hmap

/-! ## The streaming loop invariant is preserved -/

theorem stepP_inv {R : Nat} (hR : 1 ≤ R) {consumed : List Player}
    {st : Online.LoopState} (hinv : StreamInv R consumed st) (p : Player) :
    ∃ st', Online.stepP R st p = Except.ok st' ∧
      StreamInv R (consumed ++ [p]) st' := by
  obtain ⟨hcount, hlen, htop, hbelow, hheap, hcuts⟩ := hinv
  have hNlen : (consumed ++ [p]).length = consumed.length + 1 := by simp
  have hbuf : ∃ tp, Online.stepBuffer R st.topPlayers p = .ok tp ∧
      tp.length = min R (consumed.length + 1) ∧
      IsTopSub (min R (consumed.length + 1)) (levelsL tp)
        (levelsL (consumed ++ [p])) ∧
      (consumed.length + 1 < R → tp = consumed ++ [p]) ∧
      (R ≤ consumed.length + 1 → IsHeap Player.ltb tp) := by
    by_cases hfull : st.topPlayers.length < R
    · have hNR : consumed.length < R := by omega
      have htpc : st.topPlayers = consumed := hbelow hNR
      rw [stepBuffer_below p hfull]
      have hblen : (st.topPlayers ++ [p]).length = consumed.length + 1 := by
        rw [htpc]; simp
      by_cases hbR : (st.topPlayers ++ [p]).length = R
      · rw [if_pos hbR]
        have hmr : min R (consumed.length + 1) = consumed.length + 1 := by omega
        refine ⟨makeHeapMin (st.topPlayers ++ [p]), rfl, ?_, ?_, ?_, ?_⟩
        · rw [makeHeapMin_length, hblen, hmr]
        · rw [hmr]
          have hperm : List.Perm (makeHeapMin (st.topPlayers ++ [p])) (consumed ++ [p]) := by
            rw [htpc] at *
            exact makeHeapMin_perm (consumed ++ [p])
          have h := topsub_of_perm hperm
          rwa [hNlen] at h
        · intro hc; omega
        · intro _; exact makeHeapMin_isHeap _
      · rw [if_neg hbR]
        have hlt : consumed.length + 1 < R := by omega
        have hmr : min R (consumed.length + 1) = consumed.length + 1 := by omega
        refine ⟨st.topPlayers ++ [p], rfl, ?_, ?_, ?_, ?_⟩
        · rw [hblen, hmr]
        · rw [hmr, htpc]
          have h := topsub_of_perm (List.Perm.refl (consumed ++ [p]))
          rwa [hNlen] at h
        · intro _; rw [htpc]
        · intro hc; omega
    · have hRN : R ≤ consumed.length := by omega
      have hlenR : st.topPlayers.length = R := by omega
      have hne : st.topPlayers ≠ [] := length_pos_ne_nil (by omega)
      have hhp : IsHeap Player.ltb st.topPlayers := hheap hRN
      have hminN : min R consumed.length = R := by omega
      have hminN1 : min R (consumed.length + 1) = R := by omega
      have hrmem := root_level_mem hne
      have hrmin := heap_root_min_levels hhp
      have htopR : IsTopSub R (levelsL st.topPlayers) (levelsL consumed) := by
        rwa [hminN] at htop
      rw [stepBuffer_full p hfull hne]
      by_cases hc : Player.ltb (st.topPlayers.getD 0 dp) p
      · rw [if_pos hc]
        have hrp : (st.topPlayers.getD 0 dp).level_ < p.level_ := by
          simpa [Player.ltb] using hc
        have hmeq := replaceMin_multiset p hne
        have hleq := levels_of_multiset_eq hmeq
        have hxB : (p.level_ ::ₘ (levelsL st.topPlayers).erase
            (st.topPlayers.getD 0 dp).level_) + {(st.topPlayers.getD 0 dp).level_} =
            levelsL st.topPlayers + {p.level_} := by
          rw [add_comm _ ({(st.topPlayers.getD 0 dp).level_} : Multiset Nat),
            Multiset.singleton_add, Multiset.cons_swap, Multiset.cons_erase hrmem,
            add_comm _ ({p.level_} : Multiset Nat), Multiset.singleton_add]
        have hlev : levelsL (Online.replaceMin st.topPlayers p) =
            p.level_ ::ₘ (levelsL st.topPlayers).erase
              (st.topPlayers.getD 0 dp).level_ := by
          apply add_right_cancel (b := ({(st.topPlayers.getD 0 dp).level_} : Multiset Nat))
          rw [hleq, hxB]
        refine ⟨Online.replaceMin st.topPlayers p, rfl, ?_, ?_, ?_, ?_⟩
        · rw [replaceMin_length, hlenR, hminN1]
        · rw [hminN1, hlev, levelsL_append]
          exact topsub_replace htopR hrmem hrmin hrp
        · intro hcon; omega
        · intro _; exact replaceMin_heap hhp
      · rw [if_neg hc]
        have hpr : p.level_ ≤ (st.topPlayers.getD 0 dp).level_ := by
          have := hc
          simp only [Player.ltb, decide_eq_true_eq] at this
          omega
        refine ⟨st.topPlayers, rfl, ?_, ?_, ?_, ?_⟩
        · omega
        · rw [hminN1, levelsL_append]
          exact topsub_cons_small htopR (fun y hy => le_trans hpr (hrmin y hy))
        · intro hcon; omega
        · intro _; exact hhp
  obtain ⟨tp, hstep, htlen, httop, htbelow, htheap⟩ := hbuf
  have htne : tp ≠ [] := length_pos_ne_nil (by omega)
  unfold Online.stepP
  rw [hstep]
  dsimp only
  by_cases hmod : (st.playerCount + 1) % R = 0
  · rw [if_pos hmod, front_eq_ok htne]
    dsimp only
    refine ⟨_, rfl, ?_⟩
    have hmodN : (consumed.length + 1) % R = 0 := by rw [← hcount]; exact hmod
    have hRle : R ≤ consumed.length + 1 := by
      by_contra hcon
      push_neg at hcon
      rw [Nat.mod_eq_of_lt hcon] at hmodN
      omega
    have hminR : min R (consumed.length + 1) = R := by omega
    have htopR' : IsTopSub R (levelsL tp) (levelsL (consumed ++ [p])) := by
      rwa [hminR] at httop
    have hvroot : (tp.getD 0 dp).level_ = nthHighest R (consumed ++ [p]) := by
      refine heap_root_eq_nthHighest (htheap hRle) htne htopR' ?_ hR
      rw [htlen, hminR]
    refine ⟨by rw [hcount, hNlen], by rw [hNlen]; exact htlen,
      by rw [hNlen]; exact httop, by rw [hNlen]; exact htbelow,
      by rw [hNlen]; exact htheap, ?_⟩
    show cutAssign st.cutoffs (st.playerCount + 1) (tp.getD 0 dp).level_ =
      mkCuts R (consumed ++ [p]) (consumed ++ [p]).length
    have hncont : cutContains st.cutoffs (st.playerCount + 1) = false := by
      rw [hcuts, hcount]
      cases hcc : cutContains (mkCuts R consumed consumed.length) (consumed.length + 1)
      · rfl
      · have := (mkCuts_contains R consumed consumed.length (consumed.length + 1)).mp hcc
        omega
    rw [cutAssign_new _ hncont, hNlen, hcuts, hcount]
    have hfire : mkCuts R (consumed ++ [p]) (consumed.length + 1) =
        (consumed.length + 1,
          nthHighest R ((consumed ++ [p]).take (consumed.length + 1))) ::
          mkCuts R (consumed ++ [p]) consumed.length := by
      simp only [mkCuts]
      rw [if_pos hmodN]
    rw [hfire, mkCuts_append_stable R consumed p consumed.length (le_refl _)]
    have htake : (consumed ++ [p]).take (consumed.length + 1) = consumed ++ [p] := by
      rw [← hNlen]
      exact List.take_length _
    rw [htake, hvroot]
  · rw [if_neg hmod]
    refine ⟨_, rfl, ?_⟩
    have hmodN : ¬ (consumed.length + 1) % R = 0 := by rw [← hcount]; exact hmod
    refine ⟨by rw [hcount, hNlen], by rw [hNlen]; exact htlen,
      by rw [hNlen]; exact httop, by rw [hNlen]; exact htbelow,
      by rw [hNlen]; exact htheap, ?_⟩
    show st.cutoffs = mkCuts R (consumed ++ [p]) (consumed ++ [p]).length
    rw [hNlen, hcuts]
    have hnofire : mkCuts R (consumed ++ [p]) (consumed.length + 1) =
        mkCuts R (consumed ++ [p]) consumed.length := by
      simp only [mkCuts]
      rw [if_neg hmodN]
    rw [hnofire, mkCuts_append_stable R consumed p consumed.length (le_refl _)]

theorem streamInv_init (R : Nat) (hR : 1 ≤ R) :
    StreamInv R [] ⟨[], [], 0⟩ := by
  refine ⟨rfl, by simp, ?_, fun _ => rfl, ?_, rfl⟩
  · refine ⟨le_refl _, ?_, ?_⟩
    · simp [levelsL]
    · intro z hz
      simp [levelsL] at hz
  · intro h
    simp at h
    omega

theorem runList_inv {R : Nat} (hR : 1 ≤ R) :
    ∀ (ps consumed : List Player) (st : Online.LoopState),
      StreamInv R consumed st →
      ∃ st', Online.runList R ps st = .ok st' ∧ StreamInv R (consumed ++ ps) st' := by
  intro ps
  induction ps with
  | nil =>
    intro consumed st h
    exact ⟨st, rfl, by rwa [List.append_nil]⟩
  | cons p ps ih =>
    intro consumed st h
    obtain ⟨st1, hstep, hinv1⟩ := stepP_inv hR h p
    obtain ⟨st', hrun, hinv'⟩ := ih (consumed ++ [p]) st1 hinv1
    refine ⟨st', ?_, ?_⟩
    · simp only [Online.runList]
      rw [hstep]
      exact hrun
    · rwa [List.append_assoc, List.singleton_append] at hinv'

theorem rankLoop_eq_runList {R : Nat} :
    ∀ (fuel : Nat) (s : VectorPlayerStream) (st : Online.LoopState),
      fuel = s.remaining →
      Online.rankLoop R fuel s st = Online.runList R (s.players_.drop s.index_) st := by
  intro fuel
  induction fuel with
  | zero =>
    intro s st h
    have hdrop : s.players_.drop s.index_ = [] :=
      List.drop_eq_nil_of_le (by unfold VectorPlayerStream.remaining at h; omega)
    rw [hdrop]
    rfl
  | succ fuel ih =>
    intro s st h
    have hrem : 0 < s.remaining := by omega
    have hidx : s.index_ < s.players_.length := by
      unfold VectorPlayerStream.remaining at hrem
      omega
    simp only [Online.rankLoop]
    rw [if_pos hrem]
    have hnp : s.nextPlayer =
        .ok (s.players_.getD s.index_ dp, ⟨s.players_, s.index_ + 1⟩) := by
      unfold VectorPlayerStream.nextPlayer
      rw [if_neg (by omega)]
    rw [hnp]
    dsimp only
    have hdrop : s.players_.drop s.index_ =
        s.players_[s.index_] :: s.players_.drop (s.index_ + 1) :=
      List.drop_eq_getElem_cons hidx
    rw [hdrop]
    simp only [Online.runList]
    have hgd : s.players_.getD s.index_ dp = s.players_[s.index_] :=
      List.getD_eq_getElem _ _ hidx
    rw [hgd]
    cases hsp : Online.stepP R st s.players_[s.index_] with
    | error e => rfl
    | ok st' =>
      exact ih ⟨s.players_, s.index_ + 1⟩ st' (by
        unfold VectorPlayerStream.remaining at *
        dsimp only at *
        omega)

theorem rankIncoming_master {ps : List Player} {R : Nat} (hR : 1 ≤ R)
    (hne : ps ≠ []) :
    ∃ st : Online.LoopState, StreamInv R ps st ∧
      Online.rankIncoming ⟨ps, 0⟩ R = .ok ⟨sortPlayers st.topPlayers,
        if ps.length % R = 0 then st.cutoffs
        else (ps.length, (st.topPlayers.getD 0 dp).level_) :: st.cutoffs⟩ := by
  have hinit := streamInv_init R hR
  obtain ⟨st, hrun, hinv⟩ := runList_inv hR ps [] _ hinit
  rw [List.nil_append] at hinv
  refine ⟨st, hinv, ?_⟩
  unfold Online.rankIncoming
  have hloop : Online.rankLoop R (VectorPlayerStream.remaining ⟨ps, 0⟩) ⟨ps, 0⟩
      ⟨[], [], 0⟩ = .ok st := by
    rw [rankLoop_eq_runList _ _ _ rfl]
    simpa using hrun
  rw [hloop]
  dsimp only
  obtain ⟨hcount, hlen, _, _, _, hcuts⟩ := hinv
  have hN1 : 1 ≤ ps.length := by
    cases ps with
    | nil => exact absurd rfl hne
    | cons a as => simp
  by_cases hmod : ps.length % R = 0
  · have hcc : cutContains st.cutoffs st.playerCount = true := by
      rw [hcuts, hcount]
      exact (mkCuts_contains R ps ps.length ps.length).mpr ⟨hN1, le_refl _, hmod⟩
    rw [hcc, if_pos hmod]
    rfl
  · have hcc : cutContains st.cutoffs st.playerCount = false := by
      rw [hcuts, hcount]
      cases hcc2 : cutContains (mkCuts R ps ps.length) ps.length
      · rfl
      · have := (mkCuts_contains R ps ps.length ps.length).mp hcc2
        exact absurd this.2.2 hmod
    rw [hcc]
    have htne : st.topPlayers ≠ [] := length_pos_ne_nil (by omega)
    rw [front_eq_ok htne]
    dsimp only
    rw [if_neg hmod]
    have hca : cutAssign st.cutoffs st.playerCount (st.topPlayers.getD 0 dp).level_ =
        (st.playerCount, (st.topPlayers.getD 0 dp).level_) :: st.cutoffs :=
      cutAssign_new _ hcc
    rw [hca, hcount]
    rfl

/-! ## Max-heap extraction (heapRank) -/

theorem isHeap_root_max_level {l : List Player} (hh : IsHeap Player.gtb l) :
    ∀ q ∈ l, q.level_ ≤ (l.getD 0 dp).level_ := by
  intro q hq
  rcases List.mem_iff_getElem.mp hq with ⟨j, hj, hget⟩
  have hroot := isHeap_root_min strictCmp_gtb hh j hj
  rw [List.getD_eq_getElem _ _ hj, hget] at hroot
  simp only [Player.gtb, decide_eq_false_iff_not] at hroot
  omega

theorem getD_dropLast {l : List Player} {k : Nat} (h : k < l.length - 1) :
    l.dropLast.getD k dp = l.getD k dp := by
  rw [List.getD_eq_getElem _ _ (by rw [List.length_dropLast]; omega),
    List.getD_eq_getElem _ _ (by omega : k < l.length)]
  exact List.getElem_dropLast ..

theorem multiset_dropLast {l : List Player} (h : l ≠ []) :
    (↑l.dropLast : Multiset Player) + {l.getD (l.length - 1) dp} = ↑l := by
  conv_rhs => rw [← List.dropLast_append_getLast h]
  have hlast : l.getLast h = l.getD (l.length - 1) dp := by
    rw [List.getD_eq_getElem _ _ (by
      cases l with
      | nil => exact absurd rfl h
      | cons a as => simp)]
    exact List.getLast_eq_getElem l h
  rw [← hlast]
  rw [← Multiset.coe_add]
  rfl

theorem popExtract_root (l : List Player) (h : l ≠ []) :
    (Offline.popExtract l).1 = l.getD 0 dp := by
  cases l with
  | nil => exact absurd rfl h
  | cons a as => rfl

theorem popExtract_spec {l : List Player} (h : l ≠ []) (hh : IsHeap Player.gtb l) :
    (↑(Offline.popExtract l).2 : Multiset Player) + {l.getD 0 dp} = ↑l ∧
    IsHeap Player.gtb (Offline.popExtract l).2 ∧
    (Offline.popExtract l).2.length = l.length - 1 := by
  have hn : 0 < l.length := by
    cases l with
    | nil => exact absurd rfl h
    | cons a as => simp
  have hrest : (Offline.popExtract l).2 =
      Online.siftDown Player.gtb ((swapL l 0 (l.length - 1)).dropLast) 0 := by
    cases l with
    | nil => exact absurd rfl h
    | cons a as => rfl
  have hswaplen : (swapL l 0 (l.length - 1)).length = l.length := swapL_length ..
  have hswapne : swapL l 0 (l.length - 1) ≠ [] :=
    length_pos_ne_nil (by rw [hswaplen]; omega)
  have hmd : (↑(swapL l 0 (l.length - 1)).dropLast : Multiset Player) +
      {(swapL l 0 (l.length - 1)).getD ((swapL l 0 (l.length - 1)).length - 1) dp} =
      ↑(swapL l 0 (l.length - 1)) := multiset_dropLast hswapne
  have hlastval : (swapL l 0 (l.length - 1)).getD
      ((swapL l 0 (l.length - 1)).length - 1) dp = l.getD 0 dp := by
    rw [hswaplen]
    exact getD_swapL_right (by omega)
  have hswapms : (↑(swapL l 0 (l.length - 1)) : Multiset Player) = ↑l :=
    multiset_swapL (by omega) (by omega)
  refine ⟨?_, ?_, ?_⟩
  · rw [hrest, siftDown_multiset]
    rw [hlastval] at hmd
    rw [hmd, hswapms]
  · rw [hrest]
    apply siftDown_heap strictCmp_gtb
    constructor
    · intro x j hxj hjn hx0
      rw [List.length_dropLast, hswaplen] at hjn
      have hxlt : x < j := by rcases hxj with h' | h' <;> omega
      have hj0 : j ≠ 0 := by omega
      rw [getD_dropLast (by rw [hswaplen]; omega),
        getD_dropLast (by rw [hswaplen]; omega)]
      rw [getD_swapL_other (by omega) (by omega),
        getD_swapL_other (by omega) (by omega)]
      exact isHeap_iff_childOf.mp hh x j hxj (by omega)
    · intro j _ _ p hp
      rcases hp with h' | h' <;> omega
  · rw [hrest, siftDown_length, List.length_dropLast, hswaplen]

theorem extractTop_spec :
    ∀ (m : Nat) (l : List Player), IsHeap Player.gtb l → m ≤ l.length →
      (Offline.extractTop m l).1.length = m ∧
      (Offline.extractTop m l).2.length = l.length - m ∧
      IsHeap Player.gtb (Offline.extractTop m l).2 ∧
      ((↑(Offline.extractTop m l).1 : Multiset Player) +
        ↑(Offline.extractTop m l).2) = ↑l ∧
      (∀ e ∈ (Offline.extractTop m l).1, ∀ x ∈ (Offline.extractTop m l).2,
        x.level_ ≤ e.level_) := by
  intro m
  induction m with
  | zero =>
    intro l hh _
    refine ⟨rfl, by simp [Offline.extractTop], hh, ?_, ?_⟩
    · show (↑([] : List Player) : Multiset Player) + ↑l = ↑l
      simp
    · intro e he
      exact absurd he (by simp [Offline.extractTop])
  | succ m ih =>
    intro l hh hm
    have hne : l ≠ [] := length_pos_ne_nil (by omega)
    obtain ⟨hpm, hph, hpl⟩ := popExtract_spec hne hh
    have hstep : Offline.extractTop (m + 1) l =
        ((Offline.popExtract l).1 :: (Offline.extractTop m (Offline.popExtract l).2).1,
          (Offline.extractTop m (Offline.popExtract l).2).2) := by
      cases l with
      | nil => exact absurd rfl hne
      | cons a as => rfl
    obtain ⟨ih1, ih2, ih3, ih4, ih5⟩ := ih (Offline.popExtract l).2 hph (by omega)
    rw [hstep]
    refine ⟨by simp [ih1], by simp [ih2, hpl]; omega, ih3, ?_, ?_⟩
    · have hcons : (↑((Offline.popExtract l).1 ::
          (Offline.extractTop m (Offline.popExtract l).2).1) : Multiset Player) =
          (Offline.popExtract l).1 ::ₘ
            ↑(Offline.extractTop m (Offline.popExtract l).2).1 := rfl
      rw [hcons, popExtract_root l hne, Multiset.cons_add, ih4,
        ← Multiset.singleton_add, add_comm, hpm]
    · intro e he x hx
      rcases List.mem_cons.mp he with he | he
      · have hxl' : x ∈ (Offline.popExtract l).2 := by
          have hxle : (↑(Offline.extractTop m (Offline.popExtract l).2).2 :
              Multiset Player) ≤ ↑(Offline.popExtract l).2 := by
            rw [← ih4]
            exact le_add_left (le_refl _)
          exact Multiset.mem_coe.mp (Multiset.mem_of_le hxle (Multiset.mem_coe.mpr hx))
        have hxl : x ∈ l := by
          have hle2 : (↑(Offline.popExtract l).2 : Multiset Player) ≤ ↑l := by
            rw [← hpm]
            exact le_add_right (le_refl _)
          exact Multiset.mem_coe.mp (Multiset.mem_of_le hle2 (Multiset.mem_coe.mpr hxl'))
        rw [he, popExtract_root l hne]
        exact isHeap_root_max_level hh x hxl
      · exact ih5 e he x hx

/-! ## Offline selector correctness -/

theorem sub_of_add_eq {B X P : Multiset Nat} (h : B + X = P) : P - B = X := by
  ext v
  have hc := congrArg (Multiset.count v) h
  rw [Multiset.count_add] at hc
  rw [Multiset.count_sub]
  omega

theorem levelsL_split_sum {B X P : List Player}
    (h : (↑B : Multiset Player) + ↑X = ↑P) :
    levelsL B + levelsL X = levelsL P := by
  have hm := congrArg (Multiset.map Player.level_) h
  rw [Multiset.map_add] at hm
  rw [levelsL_eq_map, levelsL_eq_map, levelsL_eq_map]
  exact hm

theorem heapRank_eq (ps : List Player) :
    Offline.heapRank ps =
      (⟨sortPlayers (Offline.extractTop (ps.length / 10) (makeHeapMax ps)).1, []⟩,
        (Offline.extractTop (ps.length / 10) (makeHeapMax ps)).2) := rfl

theorem quickSelectRank_eq (ps : List Player) :
    Offline.quickSelectRank ps =
      (⟨sortPlayers ((nthElement (ps.length - ps.length / 10) ps).drop
          (ps.length - ps.length / 10)), []⟩,
        nthElement (ps.length - ps.length / 10) ps) := rfl

theorem heapRank_topsub (ps : List Player) :
    IsTopSub (ps.length / 10) (levelsL (Offline.heapRank ps).1.top_) (levelsL ps) ∧
    (Offline.heapRank ps).1.top_.length = ps.length / 10 ∧
    List.Sorted levelLe (Offline.heapRank ps).1.top_ ∧
    (Offline.heapRank ps).2.length = ps.length - ps.length / 10 := by
  have hh := makeHeapMax_isHeap ps
  have hlen : (makeHeapMax ps).length = ps.length := (makeHeapMax_perm ps).length_eq
  have hdvd : ps.length / 10 ≤ ps.length := Nat.div_le_self _ _
  obtain ⟨he1, he2, _, he4, he5⟩ :=
    extractTop_spec (ps.length / 10) (makeHeapMax ps) hh (by omega)
  have hsum := levelsL_split_sum he4
  have hheaped : levelsL (makeHeapMax ps) = levelsL ps := levelsL_perm (makeHeapMax_perm ps)
  rw [hheaped] at hsum
  have htops : levelsL (Offline.heapRank ps).1.top_ =
      levelsL (Offline.extractTop (ps.length / 10) (makeHeapMax ps)).1 := by
    rw [heapRank_eq]
    exact levelsL_perm (sortPlayers_perm _)
  refine ⟨?_, ?_, ?_, ?_⟩
  · rw [htops]
    refine ⟨?_, ?_, ?_⟩
    · rw [← hsum]
      exact le_add_right (le_refl _)
    · rw [levelsL_card, he1]
    · have hcomp := sub_of_add_eq hsum
      rw [hcomp]
      intro x hx y hy
      unfold levelsL at hx hy
      rw [Multiset.mem_coe, List.mem_map] at hx hy
      rcases hx with ⟨qx, hqx, hqxl⟩
      rcases hy with ⟨qy, hqy, hqyl⟩
      rw [← hqxl, ← hqyl]
      exact he5 qy hqy qx hqx
  · rw [heapRank_eq]
    show (sortPlayers _).length = ps.length / 10
    rw [(sortPlayers_perm _).length_eq, he1]
  · rw [heapRank_eq]
    exact sortPlayers_sorted _
  · rw [heapRank_eq]
    show (Offline.extractTop (ps.length / 10) (makeHeapMax ps)).2.length = _
    rw [he2, hlen]

theorem topsub_drop_sorted_asc {cs : List Player} (hs : List.Sorted levelLe cs)
    {k : Nat} (hk : k ≤ cs.length) :
    IsTopSub (cs.length - k) (levelsL (cs.drop k)) (levelsL cs) := by
  refine ⟨?_, by rw [levelsL_card, List.length_drop], ?_⟩
  · unfold levelsL
    exact Multiset.coe_le.mpr ((List.drop_sublist k cs).map Player.level_).subperm
  · have hsum : levelsL (cs.take k) + levelsL (cs.drop k) = levelsL cs := by
      unfold levelsL
      rw [Multiset.coe_add, ← List.map_append, List.take_append_drop]
    have hsum' : levelsL (cs.drop k) + levelsL (cs.take k) = levelsL cs := by
      rw [add_comm]; exact hsum
    have hcomp := sub_of_add_eq hsum'
    rw [hcomp]
    intro x hx y hy
    unfold levelsL at hx hy
    rw [Multiset.mem_coe, List.mem_map] at hx hy
    rcases hx with ⟨qx, hqx, hqxl⟩
    rcases hy with ⟨qy, hqy, hqyl⟩
    rcases List.mem_iff_getElem.mp hqx with ⟨b, hb, hqxb⟩
    rcases List.mem_iff_getElem.mp hqy with ⟨a, ha, hqya⟩
    have hb' : b < k := by
      have := hb
      rw [List.length_take] at this
      omega
    have ha' : k + a < cs.length := by
      have := ha
      rw [List.length_drop] at this
      omega
    have hbc : b < cs.length := by omega
    have hqx' : qx = cs[b] := by
      rw [← hqxb]
      exact List.getElem_take ..
    have hqy' : qy = cs[k + a] := by
      rw [← hqya]
      exact List.getElem_drop ..
    have hrel := List.pairwise_iff_getElem.mp hs b (k + a) (by omega) ha' (by omega)
    unfold levelLe at hrel
    rw [← hqxl, ← hqyl, hqx', hqy']
    exact hrel

theorem quickSelectRank_topsub (ps : List Player) :
    IsTopSub (ps.length / 10) (levelsL (Offline.quickSelectRank ps).1.top_)
      (levelsL ps) ∧
    (Offline.quickSelectRank ps).1.top_.length = ps.length / 10 ∧
    List.Sorted levelLe (Offline.quickSelectRank ps).1.top_ := by
  have hsorted : List.Sorted levelLe (nthElement (ps.length - ps.length / 10) ps) :=
    List.sorted_insertionSort levelLe ps
  have hperm : List.Perm (nthElement (ps.length - ps.length / 10) ps) ps :=
    List.perm_insertionSort levelLe ps
  have hlen : (nthElement (ps.length - ps.length / 10) ps).length = ps.length :=
    hperm.length_eq
  have hdvd : ps.length / 10 ≤ ps.length := Nat.div_le_self _ _
  have hts := topsub_drop_sorted_asc hsorted
    (k := ps.length - ps.length / 10) (by omega)
  rw [hlen] at hts
  have hN : ps.length - (ps.length - ps.length / 10) = ps.length / 10 := by omega
  have htop : levelsL (Offline.quickSelectRank ps).1.top_ =
      levelsL ((nthElement (ps.length - ps.length / 10) ps).drop
        (ps.length - ps.length / 10)) := by
    rw [quickSelectRank_eq]
    exact levelsL_perm (sortPlayers_perm _)
  refine ⟨?_, ?_, ?_⟩
  · rw [htop]
    have harr : levelsL (nthElement (ps.length - ps.length / 10) ps) = levelsL ps :=
      levelsL_perm hperm
    rw [hN, harr] at hts
    exact hts
  · rw [quickSelectRank_eq]
    show (sortPlayers _).length = ps.length / 10
    rw [(sortPlayers_perm _).length_eq, List.length_drop, hlen]
    omega
  · rw [quickSelectRank_eq]
    exact sortPlayers_sorted _

/-! ## No exhaustion error is reachable -/

theorem rankIncoming_empty (R : Nat) :
    Online.rankIncoming ⟨[], 0⟩ R = .error RankErr.frontEmpty := rfl

theorem front_not_exhausted (l : List Player) :
    front l ≠ Except.error RankErr.exhausted := by
  cases l <;> simp [front]

theorem stepBuffer_no_exhaustion (R : Nat) (tp : List Player) (p : Player) :
    Online.stepBuffer R tp p ≠ Except.error RankErr.exhausted := by
  unfold Online.stepBuffer
  by_cases h : tp.length < R
  · rw [if_pos h]
    simp
  · rw [if_neg h]
    cases tp with
    | nil => simp [front]
    | cons a as =>
      show (match front (a :: as) with
        | .error e => Except.error e
        | .ok f => if Player.ltb f p then Except.ok (Online.replaceMin (a :: as) p)
            else Except.ok (a :: as)) ≠ _
      rw [front_eq_ok (by simp)]
      dsimp only
      split <;> simp

theorem stepP_no_exhaustion (R : Nat) (st : Online.LoopState) (p : Player) :
    Online.stepP R st p ≠ Except.error RankErr.exhausted := by
  unfold Online.stepP
  cases hsb : Online.stepBuffer R st.topPlayers p with
  | error e =>
    dsimp only
    intro hcon
    injection hcon with he
    exact stepBuffer_no_exhaustion R st.topPlayers p (by rw [hsb, he])
  | ok tp =>
    dsimp only
    by_cases hmod : (st.playerCount + 1) % R = 0
    · rw [if_pos hmod]
      cases hfr : front tp with
      | error e =>
        intro hcon
        injection hcon with he
        exact front_not_exhausted tp (by rw [hfr, he])
      | ok f => simp
    · rw [if_neg hmod]
      simp

theorem rankLoop_no_exhaustion (R : Nat) :
    ∀ (fuel : Nat) (s : VectorPlayerStream) (st : Online.LoopState),
      Online.rankLoop R fuel s st ≠ .error RankErr.exhausted := by
  intro fuel
  induction fuel with
  | zero => intro s st; simp [Online.rankLoop]
  | succ fuel ih =>
    intro s st
    simp only [Online.rankLoop]
    by_cases hrem : 0 < s.remaining
    · rw [if_pos hrem]
      have hidx : s.index_ < s.players_.length := by
        unfold VectorPlayerStream.remaining at hrem
        omega
      have hnp : s.nextPlayer =
          .ok (s.players_.getD s.index_ dp, ⟨s.players_, s.index_ + 1⟩) := by
        unfold VectorPlayerStream.nextPlayer
        rw [if_neg (by omega)]
      rw [hnp]
      dsimp only
      cases hsp : Online.stepP R st (s.players_.getD s.index_ dp) with
      | error e =>
        intro hcon
        injection hcon with he
        exact stepP_no_exhaustion R st _ (by rw [hsp, he])
      | ok st' => exact ih _ _
    · rw [if_neg hrem]
      simp

theorem rankIncoming_no_exhaustion (s : VectorPlayerStream) (R : Nat) :
    Online.rankIncoming s R ≠ .error RankErr.exhausted := by
  unfold Online.rankIncoming
  cases hrl : Online.rankLoop R s.remaining s ⟨[], [], 0⟩ with
  | error e =>
    dsimp only
    intro hcon
    injection hcon with he
    exact rankLoop_no_exhaustion R s.remaining s ⟨[], [], 0⟩ (by rw [hrl, he])
  | ok st =>
    dsimp only
    by_cases hcc : cutContains st.cutoffs st.playerCount = true
    · rw [if_pos hcc]
      simp
    · rw [if_neg hcc]
      cases hfr : front st.topPlayers with
      | error e =>
        intro hcon
        injection hcon with he
        exact front_not_exhausted st.topPlayers (by rw [hfr, he])
      | ok f => simp

theorem take_eq_take_min (L : List Nat) (R : Nat) :
    L.take R = L.take (min R L.length) := by
  rcases Nat.le_total R L.length with h | h
  · rw [Nat.min_eq_left h]
  · rw [Nat.min_eq_right h, List.take_of_length_le h,
      List.take_of_length_le (le_refl _)]

/-! ## Claim theorems -/

/-- C5: for every non-empty contiguous range satisfying the min-heap
property and every replacement value, `replaceMin` yields a range that
again satisfies the min-heap property and holds, as a multiset, the
original contents with the old minimum (the root, which is a minimum
of the range) removed and the replacement value added. -/
theorem replaceMin_correct (l : List Player) (t : Player) (hne : l ≠ [])
    (hh : IsHeap Player.ltb l) :
    IsHeap Player.ltb (Online.replaceMin l t) ∧
    (↑(Online.replaceMin l t) : Multiset Player) + {l.getD 0 dp} = ↑l + {t} ∧
    (∀ q ∈ l, (l.getD 0 dp).level_ ≤ q.level_) :=
  ⟨replaceMin_heap hh, replaceMin_multiset t hne, isHeap_root_min_level hh⟩

theorem replaceMin_correct_witness :
    ([⟨0, 1⟩, ⟨1, 3⟩, ⟨2, 2⟩] : List Player) ≠ [] ∧
    IsHeap Player.ltb [⟨0, 1⟩, ⟨1, 3⟩, ⟨2, 2⟩] ∧
    (IsHeap Player.ltb (Online.replaceMin [⟨0, 1⟩, ⟨1, 3⟩, ⟨2, 2⟩] ⟨9, 5⟩) ∧
      (↑(Online.replaceMin [⟨0, 1⟩, ⟨1, 3⟩, ⟨2, 2⟩] ⟨9, 5⟩) : Multiset Player) +
        {([⟨0, 1⟩, ⟨1, 3⟩, ⟨2, 2⟩] : List Player).getD 0 dp} =
        ↑([⟨0, 1⟩, ⟨1, 3⟩, ⟨2, 2⟩] : List Player) + {⟨9, 5⟩} ∧
      (∀ q ∈ ([⟨0, 1⟩, ⟨1, 3⟩, ⟨2, 2⟩] : List Player),
        (([⟨0, 1⟩, ⟨1, 3⟩, ⟨2, 2⟩] : List Player).getD 0 dp).level_ ≤ q.level_)) :=
  ⟨by decide, by decide, replaceMin_correct _ _ (by decide) (by decide)⟩

/-- C7: the percolate-down loop of `replaceMin` terminates: run with an
explicit iteration budget of the heap size (plus the final exit check)
it always reaches its exit condition rather than exhausting the
budget, and every larger budget gives the same result, so `replaceMin`
is a total function of its inputs. -/
theorem replaceMin_terminates (l : List Player) (t : Player) :
    Online.replaceMinFuel (l.length + 1) l t = some (Online.replaceMin l t) ∧
    ∀ fuel, l.length + 1 ≤ fuel →
      Online.replaceMinFuel fuel l t = some (Online.replaceMin l t) := by
  have hbase : Online.replaceMinFuel (l.length + 1) l t =
      some (Online.replaceMin l t) := by
    unfold Online.replaceMinFuel Online.replaceMin
    by_cases h0 : l.length = 0
    · rw [if_pos h0, if_pos h0]
    · rw [if_neg h0, if_neg h0]
      have h := siftDownFuel_siftDown Player.ltb (l.set 0 t) 0
      rwa [List.length_set] at h
  refine ⟨hbase, ?_⟩
  intro fuel hfuel
  unfold Online.replaceMinFuel at hbase ⊢
  by_cases h0 : l.length = 0
  · rw [if_pos h0] at hbase ⊢
    exact hbase
  · rw [if_neg h0] at hbase ⊢
    exact siftDownFuel_mono Player.ltb _ _ _ _ _ hbase hfuel

/-- C1: the claim (and the spec's edge-case sentence) says the forced
final cutoffs entry of a sub-interval stream maps the final count to
the minimum level among all entities consumed.  The code instead
records `topPlayers.front().level_`, and the sub-capacity buffer was
never heapified, so the front is the FIRST entity consumed, not the
minimum: on the stream [(0,7),(1,3)] with R = 5 the recorded cutoff
value is 7 while the minimum observed level is 3.  This contradicts
the function's own documentation ("the minimum level required to be in
the leaderboard"), so the code, not the claim, is wrong. -/
theorem rankIncoming_small_stream_cutoff_bug :
    Online.rankIncoming ⟨[⟨0, 7⟩, ⟨1, 3⟩], 0⟩ 5 =
      .ok ⟨[⟨1, 3⟩, ⟨0, 7⟩], [(2, 7)]⟩ ∧
    cutLookup [(2, 7)] 2 = some 7 ∧
    (∀ p ∈ ([⟨0, 7⟩, ⟨1, 3⟩] : List Player), 3 ≤ p.level_) ∧
    (⟨1, 3⟩ : Player) ∈ ([⟨0, 7⟩, ⟨1, 3⟩] : List Player) ∧
    (7 : Nat) ≠ 3 := by decide

/-- C2 counterexample: on a source holding zero entities the forced
final cutoff reads `topPlayers.front()` on an empty buffer — an
out-of-bounds access — so `rankIncoming` does not run to completion on
every sequential source. -/
theorem rankIncoming_empty_stream_oob :
    Online.rankIncoming ⟨[], 0⟩ 1 = .error RankErr.frontEmpty := by decide

/-- C2 (amended): for every sequential source holding at least one
entity and every reporting interval R ≥ 1, `rankIncoming` runs to
completion and returns a Result; in the embedding every out-of-bounds
buffer read surfaces as an error, so a normal result means every read
of the leader buffer's front element occurred on a non-empty buffer. -/
theorem rankIncoming_ok_of_nonempty (ps : List Player) (R : Nat)
    (hR : 1 ≤ R) (hne : ps ≠ []) :
    ∃ res, Online.rankIncoming ⟨ps, 0⟩ R = .ok res := by
  obtain ⟨st, _, heq⟩ := rankIncoming_master hR hne
  exact ⟨_, heq⟩

theorem rankIncoming_ok_of_nonempty_witness :
    1 ≤ 2 ∧ ([⟨0, 4⟩] : List Player) ≠ [] ∧
    ∃ res, Online.rankIncoming ⟨[⟨0, 4⟩], 0⟩ 2 = .ok res :=
  ⟨by decide, by decide, rankIncoming_ok_of_nonempty _ _ (by decide) (by decide)⟩

/-- C3 counterexample: on the stream
[(0,1),(1,2),(2,3),(3,9),(4,9),(5,10),(6,11)] with R = 3 the code
returns the top subset [(4,9),(5,10),(6,11)], evicting the
EARLIER-seen of the two tied level-9 entities, whereas the claimed
first-seen tie precedence selects [(3,9),(5,10),(6,11)].  The trace
does not depend on `std::make_heap`'s choice of arrangement: the one
heapify in this run acts on the buffer [(0,1),(1,2),(2,3)], whose
levels are strictly increasing, so it is already a valid min-heap
with pairwise-distinct values and is left unchanged by the model and
by the deployed implementations alike (see `makeHeapMin`); every
subsequent buffer update is the repository's own `replaceMin`, whose
strict `<` percolation deterministically places the later-tied (4,9)
off the root and the earlier-tied (3,9) at the root, where the final
arrival (6,11) evicts it. -/
theorem rankIncoming_tie_policy_cex :
    (Online.rankIncoming
        ⟨[⟨0, 1⟩, ⟨1, 2⟩, ⟨2, 3⟩, ⟨3, 9⟩, ⟨4, 9⟩, ⟨5, 10⟩, ⟨6, 11⟩], 0⟩ 3).map
        RankingResult.top_ =
      .ok [⟨4, 9⟩, ⟨5, 10⟩, ⟨6, 11⟩] ∧
    firstSeenTop 3 [⟨0, 1⟩, ⟨1, 2⟩, ⟨2, 3⟩, ⟨3, 9⟩, ⟨4, 9⟩, ⟨5, 10⟩, ⟨6, 11⟩] =
      [⟨3, 9⟩, ⟨5, 10⟩, ⟨6, 11⟩] ∧
    makeHeapMin [⟨0, 1⟩, ⟨1, 2⟩, ⟨2, 3⟩] = [⟨0, 1⟩, ⟨1, 2⟩, ⟨2, 3⟩] ∧
    ([⟨4, 9⟩, ⟨5, 10⟩, ⟨6, 11⟩] : List Player) ≠ [⟨3, 9⟩, ⟨5, 10⟩, ⟨6, 11⟩] := by
  decide

/-- C3 (amended): whenever `rankIncoming` completes with R ≥ 1, the
returned top subset consists, as a multiset of LEVELS, of exactly the
min(R, N) highest levels seen over the whole stream, sorted ascending
by level, with size min(R, N); an incoming entity tying the current
minimum is dropped, but which among tied buffered entities is evicted
is the heap root, which is not determined by seen order. -/
theorem rankIncoming_top_levels (ps : List Player) (R : Nat) (res : RankingResult)
    (hR : 1 ≤ R) (hok : Online.rankIncoming ⟨ps, 0⟩ R = .ok res) :
    levelsL res.top_ = ↑(specTopLevels R ps) ∧
    List.Sorted levelLe res.top_ ∧
    res.top_.length = min R ps.length := by
  have hne : ps ≠ [] := by
    intro hnil
    rw [hnil, rankIncoming_empty R] at hok
    exact Except.noConfusion hok
  obtain ⟨st, hinv, heq⟩ := rankIncoming_master hR hne
  rw [heq] at hok
  injection hok with hok
  obtain ⟨_, hlen, htop, _, _, _⟩ := hinv
  have htops : res.top_ = sortPlayers st.topPlayers := by rw [← hok]
  have hsL : List.Sorted geN (sortDescLevels ps) := sortDescLevels_sorted ps
  have hmlen : min R ps.length ≤ (sortDescLevels ps).length := by
    rw [sortDescLevels_length]
    omega
  have htop' : IsTopSub (min R ps.length) (levelsL st.topPlayers)
      ↑(sortDescLevels ps) := by
    rw [sortDescLevels_coe]
    exact htop
  have hcanon : levelsL st.topPlayers =
      ↑((sortDescLevels ps).take (min R ps.length)) :=
    topsub_unique htop' (topsub_take_sorted hsL hmlen)
  refine ⟨?_, ?_, ?_⟩
  · rw [htops]
    rw [levelsL_perm (sortPlayers_perm st.topPlayers), hcanon]
    unfold specTopLevels
    rw [take_eq_take_min (sortDescLevels ps) R, sortDescLevels_length]
  · rw [htops]
    exact sortPlayers_sorted _
  · rw [htops, (sortPlayers_perm _).length_eq, hlen]

theorem rankIncoming_top_levels_witness :
    1 ≤ 1 ∧
    Online.rankIncoming ⟨[⟨0, 1⟩, ⟨1, 2⟩], 0⟩ 1 =
      .ok ⟨[⟨1, 2⟩], [(2, 2), (1, 1)]⟩ ∧
    (levelsL ([⟨1, 2⟩] : List Player) = ↑(specTopLevels 1 [⟨0, 1⟩, ⟨1, 2⟩]) ∧
      List.Sorted levelLe ([⟨1, 2⟩] : List Player) ∧
      ([⟨1, 2⟩] : List Player).length = min 1 ([⟨0, 1⟩, ⟨1, 2⟩] : List Player).length) :=
  ⟨by decide, by decide, rankIncoming_top_levels [⟨0, 1⟩, ⟨1, 2⟩] 1
    ⟨[⟨1, 2⟩], [(2, 2), (1, 1)]⟩ (by decide) (by decide)⟩

/-- C6: for every non-empty collection in which no tied levels
straddle the partition boundary, `heapRank` and `quickSelectRank`
(applied to independent copies) return top subsets that are equal as
multisets of level values, both sorted ascending, and both of size
⌊N/10⌋.  (The level-multiset agreement in fact holds with or without
the tie hypothesis; ties only affect which tied entity is chosen.) -/
theorem heapRank_quickSelect_agree (ps : List Player) (hne : ps ≠ [])
    (hstrad : NoStraddle ps) :
    levelsL (Offline.heapRank ps).1.top_ =
      levelsL (Offline.quickSelectRank ps).1.top_ ∧
    List.Sorted levelLe (Offline.heapRank ps).1.top_ ∧
    List.Sorted levelLe (Offline.quickSelectRank ps).1.top_ ∧
    (Offline.heapRank ps).1.top_.length = ps.length / 10 ∧
    (Offline.quickSelectRank ps).1.top_.length = ps.length / 10 := by
  obtain ⟨h1, h2, h3, _⟩ := heapRank_topsub ps
  obtain ⟨h4, h5, h6⟩ := quickSelectRank_topsub ps
  exact ⟨topsub_unique h1 h4, h3, h6, h2, h5⟩

theorem heapRank_quickSelect_agree_witness :
    ([⟨0, 5⟩, ⟨1, 12⟩, ⟨2, 3⟩, ⟨3, 9⟩, ⟨4, 1⟩, ⟨5, 15⟩, ⟨6, 7⟩, ⟨7, 2⟩, ⟨8, 11⟩,
      ⟨9, 4⟩] : List Player) ≠ [] ∧
    NoStraddle [⟨0, 5⟩, ⟨1, 12⟩, ⟨2, 3⟩, ⟨3, 9⟩, ⟨4, 1⟩, ⟨5, 15⟩, ⟨6, 7⟩, ⟨7, 2⟩,
      ⟨8, 11⟩, ⟨9, 4⟩] ∧
    (levelsL (Offline.heapRank [⟨0, 5⟩, ⟨1, 12⟩, ⟨2, 3⟩, ⟨3, 9⟩, ⟨4, 1⟩, ⟨5, 15⟩,
        ⟨6, 7⟩, ⟨7, 2⟩, ⟨8, 11⟩, ⟨9, 4⟩]).1.top_ =
      levelsL (Offline.quickSelectRank [⟨0, 5⟩, ⟨1, 12⟩, ⟨2, 3⟩, ⟨3, 9⟩, ⟨4, 1⟩,
        ⟨5, 15⟩, ⟨6, 7⟩, ⟨7, 2⟩, ⟨8, 11⟩, ⟨9, 4⟩]).1.top_ ∧
      List.Sorted levelLe (Offline.heapRank [⟨0, 5⟩, ⟨1, 12⟩, ⟨2, 3⟩, ⟨3, 9⟩,
        ⟨4, 1⟩, ⟨5, 15⟩, ⟨6, 7⟩, ⟨7, 2⟩, ⟨8, 11⟩, ⟨9, 4⟩]).1.top_ ∧
      List.Sorted levelLe (Offline.quickSelectRank [⟨0, 5⟩, ⟨1, 12⟩, ⟨2, 3⟩,
        ⟨3, 9⟩, ⟨4, 1⟩, ⟨5, 15⟩, ⟨6, 7⟩, ⟨7, 2⟩, ⟨8, 11⟩, ⟨9, 4⟩]).1.top_ ∧
      (Offline.heapRank [⟨0, 5⟩, ⟨1, 12⟩, ⟨2, 3⟩, ⟨3, 9⟩, ⟨4, 1⟩, ⟨5, 15⟩, ⟨6, 7⟩,
        ⟨7, 2⟩, ⟨8, 11⟩, ⟨9, 4⟩]).1.top_.length =
        ([⟨0, 5⟩, ⟨1, 12⟩, ⟨2, 3⟩, ⟨3, 9⟩, ⟨4, 1⟩, ⟨5, 15⟩, ⟨6, 7⟩, ⟨7, 2⟩,
          ⟨8, 11⟩, ⟨9, 4⟩] : List Player).length / 10 ∧
      (Offline.quickSelectRank [⟨0, 5⟩, ⟨1, 12⟩, ⟨2, 3⟩, ⟨3, 9⟩, ⟨4, 1⟩, ⟨5, 15⟩,
        ⟨6, 7⟩, ⟨7, 2⟩, ⟨8, 11⟩, ⟨9, 4⟩]).1.top_.length =
        ([⟨0, 5⟩, ⟨1, 12⟩, ⟨2, 3⟩, ⟨3, 9⟩, ⟨4, 1⟩, ⟨5, 15⟩, ⟨6, 7⟩, ⟨7, 2⟩,
          ⟨8, 11⟩, ⟨9, 4⟩] : List Player).length / 10) :=
  ⟨by decide, by decide, heapRank_quickSelect_agree _ (by decide) (by decide)⟩

/-- C8: `VectorPlayerStream::nextPlayer` raises its exhaustion error
if and only if the remaining count is zero, and `rankIncoming` never
triggers that error on any input: it calls `nextPlayer` only after
checking that the remaining count is strictly positive. -/
theorem nextPlayer_exhaustion_guarded (s : VectorPlayerStream) (R : Nat) :
    (s.nextPlayer = .error StreamErr.exhausted ↔ s.remaining = 0) ∧
    Online.rankIncoming s R ≠ .error RankErr.exhausted := by
  refine ⟨?_, rankIncoming_no_exhaustion s R⟩
  unfold VectorPlayerStream.nextPlayer VectorPlayerStream.remaining
  by_cases h : s.players_.length ≤ s.index_
  · rw [if_pos h]
    constructor
    · intro _; omega
    · intro _; rfl
  · rw [if_neg h]
    constructor
    · intro hcon; exact Except.noConfusion hcon
    · intro hcon; omega

/-- C9: for every collection with fewer than 10 entities (the empty
one included), both `heapRank` and `quickSelectRank` return a result
with an empty top subset, without raising any error (both are total
functions in the embedding). -/
theorem small_collections_empty_top (ps : List Player) (h : ps.length < 10) :
    (Offline.heapRank ps).1.top_ = [] ∧
    (Offline.quickSelectRank ps).1.top_ = [] := by
  have h10 : ps.length / 10 = 0 := Nat.div_eq_of_lt h
  constructor
  · rw [heapRank_eq]
    show sortPlayers (Offline.extractTop (ps.length / 10) (makeHeapMax ps)).1 = []
    rw [h10]
    rfl
  · rw [quickSelectRank_eq]
    show sortPlayers ((nthElement (ps.length - ps.length / 10) ps).drop
      (ps.length - ps.length / 10)) = []
    have hlen : (nthElement (ps.length - ps.length / 10) ps).length = ps.length :=
      (List.perm_insertionSort levelLe ps).length_eq
    have hdrop : (nthElement (ps.length - ps.length / 10) ps).drop
        (ps.length - ps.length / 10) = [] := by
      apply List.drop_eq_nil_of_le
      rw [hlen]
      omega
    rw [hdrop]
    rfl

theorem small_collections_empty_top_witness :
    ([⟨0, 9⟩, ⟨1, 4⟩] : List Player).length < 10 ∧
    ((Offline.heapRank [⟨0, 9⟩, ⟨1, 4⟩]).1.top_ = [] ∧
      (Offline.quickSelectRank [⟨0, 9⟩, ⟨1, 4⟩]).1.top_ = []) :=
  ⟨by decide, small_collections_empty_top _ (by decide)⟩

/-- C10: after `quickSelectRank` the caller's vector still has its
original size and holds exactly the original multiset of players (it
is only rearranged), whereas `heapRank` leaves the caller's vector
with ⌊N/10⌋ elements removed. -/
theorem quickSelectRank_preserves_input (ps : List Player) :
    (Offline.quickSelectRank ps).2.length = ps.length ∧
    (↑(Offline.quickSelectRank ps).2 : Multiset Player) = ↑ps ∧
    (Offline.heapRank ps).2.length = ps.length - ps.length / 10 := by
  refine ⟨?_, ?_, (heapRank_topsub ps).2.2.2⟩
  · rw [quickSelectRank_eq]
    exact (List.perm_insertionSort levelLe ps).length_eq
  · rw [quickSelectRank_eq]
    exact Multiset.coe_eq_coe.mpr (List.perm_insertionSort levelLe ps)

theorem le_of_mod_eq_zero {k R : Nat} (h1 : 1 ≤ k) (h : k % R = 0) : R ≤ k := by
  by_contra hc
  push_neg at hc
  rw [Nat.mod_eq_of_lt hc] at h
  omega

/-- C4 counterexample: on the stream [(0,5),(1,3),(2,4)] with R = 9
the single (forced final) cutoffs entry maps 3 to 5 — the level of the
first entity consumed, read from the front of the never-heapified
buffer — while the minimum level among the entities then held in the
leader buffer (all three) is 3; so the claimed "value equals the
minimum level of the buffer" fails when fewer than R entities exist. -/
theorem rankIncoming_cutoff_value_cex :
    (Online.rankIncoming ⟨[⟨0, 5⟩, ⟨1, 3⟩, ⟨2, 4⟩], 0⟩ 9).map
      RankingResult.cutoffs_ = .ok [(3, 5)] ∧
    cutLookup [(3, 5)] 3 = some 5 ∧
    (⟨1, 3⟩ : Player) ∈ ([⟨0, 5⟩, ⟨1, 3⟩, ⟨2, 4⟩] : List Player) ∧
    (∀ p ∈ ([⟨0, 5⟩, ⟨1, 3⟩, ⟨2, 4⟩] : List Player), 3 ≤ p.level_) ∧
    (5 : Nat) ≠ 3 := by decide

/-- C4 (amended): whenever `rankIncoming` completes with R ≥ 1 on a
stream of N entities, the key set of the returned cutoffs map is
exactly the multiples of R that are at most N together with N itself,
with no duplicate key; the value at every key k with R ≤ k is the
R-th highest level among the first k entities consumed (the minimum
level of the then-current top-R); but when N < R, the single key N
holds the level of the FIRST entity consumed, which need not be the
buffer's minimum. -/
theorem rankIncoming_cutoffs (ps : List Player) (R : Nat) (res : RankingResult)
    (hR : 1 ≤ R) (hok : Online.rankIncoming ⟨ps, 0⟩ R = .ok res) :
    (res.cutoffs_.map Prod.fst).Nodup ∧
    ∀ k, cutLookup res.cutoffs_ k =
      if (1 ≤ k ∧ k ≤ ps.length ∧ k % R = 0) ∨ k = ps.length then
        some (if R ≤ k then nthHighest R (ps.take k) else (ps.getD 0 dp).level_)
      else none := by
  have hne : ps ≠ [] := by
    intro hnil
    rw [hnil, rankIncoming_empty R] at hok
    exact Except.noConfusion hok
  obtain ⟨st, hinv, heq⟩ := rankIncoming_master hR hne
  rw [heq] at hok
  injection hok with hok
  obtain ⟨hcount, hlen, htop, hbelow, hheap, hcuts⟩ := hinv
  have hN1 : 1 ≤ ps.length := by
    cases ps with
    | nil => exact absurd rfl hne
    | cons a as => simp
  have hcres : res.cutoffs_ = if ps.length % R = 0 then st.cutoffs
      else (ps.length, (st.topPlayers.getD 0 dp).level_) :: st.cutoffs := by
    rw [← hok]
  by_cases hmod : ps.length % R = 0
  · rw [hcres, if_pos hmod, hcuts]
    refine ⟨mkCuts_nodup R ps ps.length, ?_⟩
    intro k
    rw [mkCuts_lookup]
    by_cases hcond : 1 ≤ k ∧ k ≤ ps.length ∧ k % R = 0
    · rw [if_pos hcond, if_pos (Or.inl hcond)]
      rw [if_pos (le_of_mod_eq_zero hcond.1 hcond.2.2)]
    · rw [if_neg hcond, if_neg ?_]
      rintro (hA | hkN)
      · exact hcond hA
      · exact hcond ⟨by omega, by omega, by rw [hkN]; exact hmod⟩
  · rw [hcres, if_neg hmod]
    constructor
    · rw [List.map_cons, List.nodup_cons]
      refine ⟨?_, by rw [hcuts]; exact mkCuts_nodup R ps ps.length⟩
      intro hmem
      rcases List.mem_map.mp hmem with ⟨kv, hkv, hfst⟩
      rw [hcuts] at hkv
      have hcc : cutContains (mkCuts R ps ps.length) kv.1 = true :=
        (cutContains_iff _ _).mpr ⟨kv.2, hkv⟩
      have hprops := (mkCuts_contains R ps ps.length kv.1).mp hcc
      rw [hfst] at hprops
      exact hmod hprops.2.2
    · intro k
      show cutLookup ((ps.length, (st.topPlayers.getD 0 dp).level_) :: st.cutoffs) k = _
      unfold cutLookup
      rw [List.find?_cons]
      by_cases hk : k = ps.length
      · have hbeq : ((ps.length, (st.topPlayers.getD 0 dp).level_).1 == k) = true := by
          rw [beq_iff_eq]
          omega
        rw [hbeq]
        rw [if_pos (Or.inr hk)]
        show some (st.topPlayers.getD 0 dp).level_ = _
        by_cases hRN : R ≤ k
        · rw [if_pos hRN]
          have hRN2 : R ≤ ps.length := by omega
          have hminR : min R ps.length = R := by omega
          have hval : (st.topPlayers.getD 0 dp).level_ = nthHighest R ps := by
            refine heap_root_eq_nthHighest (hheap hRN2)
              (length_pos_ne_nil (by omega)) ?_ (by rw [hlen, hminR]) hR
            rwa [hminR] at htop
          rw [hval, hk, List.take_length]
        · rw [if_neg hRN]
          have htpps : st.topPlayers = ps := hbelow (by omega)
          rw [htpps]
      · have hbeq : ((ps.length, (st.topPlayers.getD 0 dp).level_).1 == k) = false := by
          rw [beq_eq_false_iff_ne]
          simp only [ne_eq]
          omega
        rw [hbeq]
        have hml := mkCuts_lookup R ps ps.length k
        unfold cutLookup at hml
        rw [hcuts, hml]
        by_cases hcond : 1 ≤ k ∧ k ≤ ps.length ∧ k % R = 0
        · rw [if_pos hcond, if_pos (Or.inl hcond),
            if_pos (le_of_mod_eq_zero hcond.1 hcond.2.2)]
        · rw [if_neg hcond, if_neg ?_]
          rintro (hA | hkN)
          · exact hcond hA
          · exact hk hkN

theorem rankIncoming_cutoffs_witness :
    1 ≤ 2 ∧
    Online.rankIncoming ⟨[⟨0, 4⟩, ⟨1, 6⟩, ⟨2, 5⟩], 0⟩ 2 =
      .ok ⟨[⟨2, 5⟩, ⟨1, 6⟩], [(3, 5), (2, 4)]⟩ ∧
    ((([(3, 5), (2, 4)] : List (Nat × Nat)).map Prod.fst).Nodup ∧
      ∀ k, cutLookup [(3, 5), (2, 4)] k =
        if (1 ≤ k ∧ k ≤ ([⟨0, 4⟩, ⟨1, 6⟩, ⟨2, 5⟩] : List Player).length ∧
            k % 2 = 0) ∨ k = ([⟨0, 4⟩, ⟨1, 6⟩, ⟨2, 5⟩] : List Player).length then
          some (if 2 ≤ k then nthHighest 2 (([⟨0, 4⟩, ⟨1, 6⟩, ⟨2, 5⟩] :
              List Player).take k)
            else (([⟨0, 4⟩, ⟨1, 6⟩, ⟨2, 5⟩] : List Player).getD 0 dp).level_)
        else none) :=
  ⟨by decide, by decide, rankIncoming_cutoffs [⟨0, 4⟩, ⟨1, 6⟩, ⟨2, 5⟩] 2
    ⟨[⟨2, 5⟩, ⟨1, 6⟩], [(3, 5), (2, 4)]⟩ (by decide) (by decide)⟩

theorem replaceMin_terminates_witness :
    Online.replaceMinFuel (([⟨0, 1⟩, ⟨1, 3⟩] : List Player).length + 1)
        [⟨0, 1⟩, ⟨1, 3⟩] ⟨2, 2⟩ =
      some (Online.replaceMin [⟨0, 1⟩, ⟨1, 3⟩] ⟨2, 2⟩) ∧
    (([⟨0, 1⟩, ⟨1, 3⟩] : List Player).length + 1 ≤ 7 ∧
      Online.replaceMinFuel 7 [⟨0, 1⟩, ⟨1, 3⟩] ⟨2, 2⟩ =
        some (Online.replaceMin [⟨0, 1⟩, ⟨1, 3⟩] ⟨2, 2⟩)) :=
  ⟨(replaceMin_terminates [⟨0, 1⟩, ⟨1, 3⟩] ⟨2, 2⟩).1,
    by decide,
    (replaceMin_terminates [⟨0, 1⟩, ⟨1, 3⟩] ⟨2, 2⟩).2 7 (by decide)⟩
